import Mathlib

/-!
# Verification of the 2025CS121WebCrawler crawler against its specification

Shallow embedding of the crawler's source (src/scraper.py, src/trap.py,
src/report.py, src/crawler/frontier.py, src/crawler/worker.py) in Lean 4.

Strings are modelled as `List Char` (Python `str` is a sequence of code
points; all URLs exercised here are ASCII).  Python's `urllib.parse`
functions used by the source are embedded following CPython's reference
implementation.  Hash digests (MD5 / SHA-256) are kept abstract: the
embedding is parameterised by the digest function, since no claim depends
on the internal structure of a digest.
-/

namespace Crawler

/-- Python string, modelled as a list of code points. -/
abbrev Str := List Char

/-- `str.lower()` restricted to ASCII (all inputs exercised are ASCII). -/
def toLowerL (s : Str) : Str := s.map Char.toLower

/-- Python `s.split(sep)` with a one-character separator: always returns at
least one (possibly empty) chunk; `"a/b/".split("/") = ["a","b",""]`. -/
def splitOnChar (sep : Char) : Str → List Str
  | [] => [[]]
  | c :: rest =>
    let r := splitOnChar sep rest
    if c == sep then [] :: r
    else
      match r with
      | [] => [[c]]
      | h :: t => (c :: h) :: t

/-- Python `s.split(sep, 1)`: split at the first occurrence of `sep`
(dropping the separator), or `none` when `sep` does not occur. -/
def splitFirst (sep : Char) : Str → Option (Str × Str)
  | [] => none
  | c :: rest =>
    if c == sep then some ([], rest)
    else
      match splitFirst sep rest with
      | none => none
      | some (a, b) => some (c :: a, b)

/-- Python `s.rstrip("/")`: drop every trailing slash. -/
def rstripSlashes (p : Str) : Str :=
  (p.reverse.dropWhile (fun c => c == '/')).reverse

/-! ## Embedding of `urllib.parse` (CPython), as used by the source -/

/-- Characters CPython allows in a URL scheme after the initial letter. -/
def schemeChar (c : Char) : Bool :=
  c.isAlpha || c.isDigit || c == '+' || c == '-' || c == '.'

structure UrlSplitResult where
  scheme : Str
  netloc : Str
  path : Str
  query : Str
  fragment : Str
deriving DecidableEq, Repr

/-- The scheme-peeling stage of CPython `urllib.parse.urlsplit`: a valid
scheme before the first `:` is lowercased and removed; the second component
is the remainder. -/
def schemeSplit (url : Str) : Str × Str :=
  match splitFirst ':' url with
  | none => ([], url)
  | some (before, after) =>
    if before.length > 0
        && (match url with | c :: _ => c.isAlpha | [] => false)
        && before.all schemeChar
    then (toLowerL before, after)
    else ([], url)

/-- The netloc stage of `urlsplit`: after a leading `//`, the netloc runs
up to the first of `/?#`. -/
def netlocSplit (rest : Str) : Str × Str :=
  if ['/', '/'].isPrefixOf rest then
    let nl := (rest.drop 2).takeWhile (fun c => !(c == '/' || c == '?' || c == '#'))
    (nl, rest.drop (2 + nl.length))
  else ([], rest)

/-- The fragment stage of `urlsplit`: split at the first `#`. -/
def fragSplit (rest2 : Str) : Str × Str :=
  match splitFirst '#' rest2 with
  | none => (rest2, [])
  | some (a, b) => (a, b)

/-- The query stage of `urlsplit`: split at the first `?`. -/
def querySplit (r1 : Str) : Str × Str :=
  match splitFirst '?' r1 with
  | none => (r1, [])
  | some (a, b) => (a, b)

/-- CPython `urllib.parse.urlsplit` (with `allow_fragments=True`, the only
mode the source uses): peel a valid scheme before the first `:`, a netloc
after `//` up to the first of `/?#`, then split off the fragment at the
first `#` and the query at the first `?`. -/
def urlsplitCore (url : Str) : UrlSplitResult :=
  let sr := schemeSplit url
  let nr := netlocSplit sr.2
  let fr := fragSplit nr.2
  let pq := querySplit fr.1
  ⟨sr.1, nr.1, pq.1, pq.2, fr.2⟩

structure UrlParseResult where
  scheme : Str
  netloc : Str
  path : Str
  params : Str
  query : Str
  fragment : Str
deriving DecidableEq, Repr

/-- CPython `_splitparams`: split `;params` off the last path segment
(searching the whole string when it has no `/`). -/
def splitParamsCore (p : Str) : Str × Str :=
  if p.contains '/' then
    let afterSlash := (splitOnChar '/' p).getLastD []
    let before := p.take (p.length - afterSlash.length)
    match splitFirst ';' afterSlash with
    | none => (p, [])
    | some (a, b) => (before ++ a, b)
  else
    match splitFirst ';' p with
    | none => (p, [])
    | some (a, b) => (a, b)

/-- CPython `urllib.parse.urlparse`: `urlsplit` plus parameter splitting. -/
def urlparseCore (url : Str) : UrlParseResult :=
  let s := urlsplitCore url
  if s.path.contains ';' then
    let pp := splitParamsCore s.path
    ⟨s.scheme, s.netloc, pp.1, pp.2, s.query, s.fragment⟩
  else ⟨s.scheme, s.netloc, s.path, [], s.query, s.fragment⟩

/-- CPython `urllib.parse.urlunsplit`. -/
def urlunsplitCore (scheme netloc path query fragment : Str) : Str :=
  let url := path
  let url :=
    if !netloc.isEmpty || (!url.isEmpty && ['/', '/'].isPrefixOf url) then
      ('/' :: '/' :: netloc) ++
        (if !url.isEmpty && !(['/'].isPrefixOf url) then '/' :: url else url)
    else url
  let url := if !scheme.isEmpty then scheme ++ ':' :: url else url
  let url := if !query.isEmpty then url ++ '?' :: query else url
  if !fragment.isEmpty then url ++ '#' :: fragment else url

/-- CPython `urllib.parse.urlunparse`. -/
def urlunparseCore (r : UrlParseResult) : Str :=
  let u := if !r.params.isEmpty then r.path ++ ';' :: r.params else r.path
  urlunsplitCore r.scheme r.netloc u r.query r.fragment

/-- CPython `urllib.parse.urldefrag`: when the URL contains `#`, re-assemble
it from its parse with an empty fragment; otherwise return it unchanged. -/
def urldefragCore (url : Str) : Str × Str :=
  if url.contains '#' then
    let p := urlparseCore url
    (urlunparseCore ⟨p.scheme, p.netloc, p.path, p.params, p.query, []⟩, p.fragment)
  else (url, [])

/-- Hex digit value, as in CPython `unquote`. -/
def hexVal (c : Char) : Option Nat :=
  let n := c.toNat
  if 48 ≤ n ∧ n ≤ 57 then some (n - 48)
  else if 97 ≤ n ∧ n ≤ 102 then some (n - 87)
  else if 65 ≤ n ∧ n ≤ 70 then some (n - 55)
  else none

/-- CPython `urllib.parse.unquote`, at byte level: each valid `%XX` escape
becomes the code point `XX`; invalid escapes are kept literally.  (CPython
additionally decodes multi-byte UTF-8 escape runs; no theorem below
exercises non-ASCII escapes, where the two coincide.) -/
def unquoteCore : Str → Str
  | [] => []
  | '%' :: a :: b :: rest =>
    match hexVal a, hexVal b with
    | some ha, some hb => Char.ofNat (16 * ha + hb) :: unquoteCore rest
    | _, _ => '%' :: unquoteCore (a :: b :: rest)
  | c :: rest => c :: unquoteCore rest

/-- The `.replace("+", " ")` step of `parse_qsl`. -/
def plusToSpace (s : Str) : Str :=
  s.map (fun c => if c == '+' then ' ' else c)

/-- CPython `urllib.parse.parse_qsl(qs, keep_blank_values=True)`: split on
`&`, skip empty chunks, split each chunk at its first `=` (a chunk with no
`=` keeps a blank value), and unquote names and values. -/
def parseQslCore (qs : Str) : List (Str × Str) :=
  (splitOnChar '&' qs).filterMap fun nv =>
    if nv.isEmpty then none
    else some (match splitFirst '=' nv with
      | none => (unquoteCore (plusToSpace nv), ([] : Str))
      | some (a, b) => (unquoteCore (plusToSpace a), unquoteCore (plusToSpace b)))

/-- Append a value under a key in a `parse_qs`-style dict (association list
in first-occurrence order, like a Python dict). -/
def insertQsPair (d : List (Str × List Str)) (k : Str) (v : Str) :
    List (Str × List Str) :=
  match d with
  | [] => [(k, [v])]
  | (k', vs) :: rest =>
    if k' = k then (k', vs ++ [v]) :: rest else (k', vs) :: insertQsPair rest k v

/-- CPython `urllib.parse.parse_qs(qs, keep_blank_values=True)`: group the
`parse_qsl` pairs by key, preserving first-occurrence key order. -/
def parseQsCore (qs : Str) : List (Str × List Str) :=
  (parseQslCore qs).foldl (fun d kv => insertQsPair d kv.1 kv.2) []

/-! ## src/scraper.py: `normalize_url` -/

/-- `re.sub(r"/\x7b2,\x7d", "/", path)`: collapse every run of slashes to a
single slash. -/
def collapseSlashes : Str → Str
  | [] => []
  | [c] => [c]
  | a :: b :: rest =>
    if a == '/' && b == '/' then collapseSlashes (b :: rest)
    else a :: collapseSlashes (b :: rest)

/-- Whether the string contains two adjacent slashes (used to reason about
`collapseSlashes`, whose outputs never do). -/
def hasDS : Str → Bool
  | a :: b :: t => (a == '/' && b == '/') || hasDS (b :: t)
  | _ => false

/-- The suffix of `l` after its last occurrence of `sep` (all of `l` when
`sep` does not occur): a direct recursion computing the last chunk of
`splitOnChar sep l`. -/
def lastSegF (sep : Char) : Str → Str
  | [] => []
  | c :: t =>
    if t.contains sep then lastSegF sep t
    else if c == sep then t else c :: t

/-- The path step of `normalize_url` (src/scraper.py lines 197–219):
collapse duplicate slashes, force `/` for an empty path, then add a
trailing slash for directory-like paths and strip it for file-like ones. -/
def normPath (path0 : Str) : Str :=
  let path := if !path0.isEmpty then collapseSlashes path0 else path0
  let path := if path.isEmpty then ['/'] else path
  if path = ['/'] then path
  else
    let lastSeg := (splitOnChar '/' path).getLastD []
    let hasExt := lastSeg.contains '.' && !(['.'].isPrefixOf lastSeg)
    if hasExt then rstripSlashes path
    else if ['/'].isSuffixOf path then path
    else path ++ ['/']

/-- The ordering `pairs.sort(key=lambda kv: (kv[0], kv[1]))` sorts by:
lexicographic on the key, then on the value. -/
def pairLe (a b : Str × Str) : Prop :=
  a.1 < b.1 ∨ (a.1 = b.1 ∧ a.2 ≤ b.2)

instance : DecidableRel pairLe := fun a b => by
  unfold pairLe; infer_instance

/-- The query step of `normalize_url`: parse, sort by (key, value),
re-serialize as `k=v` joined by `&`. -/
def joinQuery : List (Str × Str) → Str
  | [] => []
  | [(k, v)] => k ++ '=' :: v
  | (k, v) :: rest => k ++ '=' :: v ++ '&' :: joinQuery rest

def sortPairs (l : List (Str × Str)) : List (Str × Str) :=
  List.insertionSort pairLe l

instance instIsTotalPairLe : IsTotal (Str × Str) pairLe where
  total := by
    intro a b
    rcases lt_trichotomy a.1 b.1 with h | h | h
    · exact Or.inl (Or.inl h)
    · rcases le_total a.2 b.2 with h2 | h2
      · exact Or.inl (Or.inr ⟨h, h2⟩)
      · exact Or.inr (Or.inr ⟨h.symm, h2⟩)
    · exact Or.inr (Or.inl h)

instance instIsTransPairLe : IsTrans (Str × Str) pairLe where
  trans := by
    intro a b c hab hbc
    rcases hab with h1 | ⟨h1, h1'⟩
    · rcases hbc with h2 | ⟨h2, h2'⟩
      · exact Or.inl (h1.trans h2)
      · exact Or.inl (h2 ▸ h1)
    · rcases hbc with h2 | ⟨h2, h2'⟩
      · exact Or.inl (h1 ▸ h2)
      · exact Or.inr ⟨h1.trans h2, h1'.trans h2'⟩

/-- src/scraper.py `normalize_url` (lines 187–231): defragment, parse,
lowercase scheme (default `http`) and netloc, normalize the path, sort and
re-serialize the query, and unparse.  The Python wrapper returns `None` on
an exception; none of the embedded operations can fail, so the embedding is
total. -/
def normalize_url (url : Str) : Str :=
  let u := (urldefragCore url).1
  let p := urlparseCore u
  let scheme := if (toLowerL p.scheme).isEmpty then "http".data else toLowerL p.scheme
  let netloc := toLowerL p.netloc
  let path := normPath p.path
  let query :=
    if !p.query.isEmpty then joinQuery (sortPairs (parseQslCore p.query))
    else p.query
  urlunparseCore ⟨scheme, netloc, path, [], query, []⟩

/-! ## src/trap.py -/

def MAX_URL_LENGTH : Nat := 2000
def MAX_PATH_DEPTH : Nat := 40
def MAX_QUERY_PARAMS : Nat := 25
def MAX_CALENDAR_PAGES_PER_DOMAIN : Nat := 250
def MAX_REPETITION_ALLOWED : Nat := 12
def MAX_PATH_QUERIES : Nat := 50

/-- `defaultdict(int)` keyed by strings: association list, missing = 0. -/
def lookupCtr (d : List (Str × Nat)) (k : Str) : Nat :=
  ((d.find? (fun kv => kv.1 == k)).map Prod.snd).getD 0

/-- `d[k] += n` on a `defaultdict(int)` / `Counter`. -/
def counterAdd (d : List (Str × Nat)) (k : Str) (n : Nat) : List (Str × Nat) :=
  match d with
  | [] => [(k, n)]
  | (k', m) :: rest =>
    if k' == k then (k', m + n) :: rest else (k', m) :: counterAdd rest k n

/-- `d[k] += 1` on a `defaultdict(int)`. -/
def incrCtr (d : List (Str × Nat)) (k : Str) : List (Str × Nat) := counterAdd d k 1

/-- Nested `defaultdict(lambda: defaultdict(int))` lookup. -/
def lookupTbl (d : List (Str × List (Str × Nat))) (k : Str) : List (Str × Nat) :=
  ((d.find? (fun kv => kv.1 == k)).map Prod.snd).getD []

/-- `d[k][p] += 1` on the nested `defaultdict`. -/
def incrTbl (d : List (Str × List (Str × Nat))) (k p : Str) :
    List (Str × List (Str × Nat)) :=
  match d with
  | [] => [(k, incrCtr [] p)]
  | (k', t) :: rest =>
    if k' == k then (k', incrCtr t p) :: rest else (k', t) :: incrTbl rest k p

/-- The per-host trap counters of src/trap.py (module-level defaultdicts). -/
structure TrapState where
  calendarCounter : List (Str × Nat)
  repetitionCounter : List (Str × Nat)
  pathQueryCounter : List (Str × List (Str × Nat))
deriving DecidableEq, Repr

def initTrapState : TrapState := ⟨[], [], []⟩

def _is_too_long (url : Str) : Bool := url.length > MAX_URL_LENGTH

def _has_excessive_path_depth (path : Str) : Bool :=
  ((splitOnChar '/' path).filter (fun p => !p.isEmpty)).length > MAX_PATH_DEPTH

def adminPrefixList : List Str :=
  ["/admin/", "/login/", "/logout/", "/.git/", "/.env", "/cgi-bin/"].map String.data

def adminKeywords : List Str :=
  ["wp-admin", "phpmyadmin", "administrator", "backend"].map String.data

def _has_admin_segments (path : Str) : Bool :=
  let pathLower := toLowerL path
  adminPrefixList.any (fun p => p.isPrefixOf pathLower) ||
    ((splitOnChar '/' path).take 3).any (fun seg => adminKeywords.contains (toLowerL seg))

/-- The index loop of `_has_repetitive_patterns`: on each matching `i` the
per-domain counter is incremented, and the function returns `True` as soon
as the counter exceeds `MAX_REPETITION_ALLOWED`. -/
def repetitiveGo (parts : List Str) (domain : Str) :
    List Nat → List (Str × Nat) → Bool × List (Str × Nat)
  | [], ctr => (false, ctr)
  | i :: is, ctr =>
    if parts.getD i [] == parts.getD (i + 2) []
        && parts.getD (i + 1) [] == parts.getD (i + 3) [] then
      let ctr' := incrCtr ctr domain
      if lookupCtr ctr' domain > MAX_REPETITION_ALLOWED then (true, ctr')
      else repetitiveGo parts domain is ctr'
    else repetitiveGo parts domain is ctr

def _has_repetitive_patterns (path domain : Str) (ctr : List (Str × Nat)) :
    Bool × List (Str × Nat) :=
  let parts := (splitOnChar '/' path).filter (fun p => !p.isEmpty)
  if parts.length ≥ 4 then repetitiveGo parts domain (List.range (parts.length - 3)) ctr
  else (false, ctr)

def isDigits (n : Nat) (s : Str) : Bool := s.length == n && s.all Char.isDigit

def isDigits12 (s : Str) : Bool := (s.length == 1 || s.length == 2) && s.all Char.isDigit

/-- Whether a string is matched entirely by the calendar pattern
`/\d\x7b4\x7d(/\d\x7b1,2\x7d(/\d\x7b1,2\x7d)?)?/?`. -/
def calendarSuffixMatch (s : Str) : Bool :=
  match splitOnChar '/' s with
  | [a, y] => a.isEmpty && isDigits 4 y
  | [a, y, b] => a.isEmpty && isDigits 4 y && (b.isEmpty || isDigits12 b)
  | [a, y, m, b] => a.isEmpty && isDigits 4 y && isDigits12 m && (b.isEmpty || isDigits12 b)
  | [a, y, m, d, b] => a.isEmpty && isDigits 4 y && isDigits12 m && isDigits12 d && b.isEmpty
  | _ => false

/-- `re.search` with the `$`-anchored calendar pattern: some suffix of the
path is matched entirely by the pattern. -/
def calendarSearch (path : Str) : Bool := path.tails.any calendarSuffixMatch

def _is_calendar_page (path domain : Str) (ctr : List (Str × Nat)) :
    Bool × List (Str × Nat) :=
  if calendarSearch path then
    let ctr' := incrCtr ctr domain
    (lookupCtr ctr' domain > MAX_CALENDAR_PAGES_PER_DOMAIN, ctr')
  else (false, ctr)

def _is_path_query_overused (domain path : Str) (ctr : List (Str × List (Str × Nat))) :
    Bool × List (Str × List (Str × Nat)) :=
  let key := toLowerL path
  let ctr' := incrTbl ctr domain key
  (lookupCtr (lookupTbl ctr' domain) key > MAX_PATH_QUERIES, ctr')

/-- Substring test (`needle in haystack` on Python strings). -/
def containsSeq (needle haystack : Str) : Bool :=
  haystack.tails.any (fun t => needle.isPrefixOf t)

def stripWs (s : Str) : Str :=
  ((s.dropWhile Char.isWhitespace).reverse.dropWhile Char.isWhitespace).reverse

def natOfDigits (s : Str) : Nat := s.foldl (fun a c => 10 * a + (c.toNat - 48)) 0

/-- Python `int(v)` on a decimal string, `none` when it raises.  (Underscore
digit grouping, accepted by CPython, is not modelled; no theorem uses it.) -/
def pyIntOfStr (s : Str) : Option Int :=
  match stripWs s with
  | '+' :: ds => if !ds.isEmpty && ds.all Char.isDigit then some (natOfDigits ds) else none
  | '-' :: ds => if !ds.isEmpty && ds.all Char.isDigit then some (-(natOfDigits ds : Int)) else none
  | ds => if !ds.isEmpty && ds.all Char.isDigit then some (natOfDigits ds) else none

def trapQueryKeys : List Str :=
  ["sessionid", "sid", "token", "auth", "key", "print", "email"].map String.data

def dokuKeys : List Str :=
  ["do", "tab_files", "tab_details", "image", "ns", "rev", "search"].map String.data

def trapActions : List Str :=
  ["edit", "history", "diff", "revisions", "admin", "login", "register", "delete"].map String.data

def actionParamKeys : List Str := ["action", "do", "cmd"].map String.data

def pageParamKeys : List Str := ["page", "p", "offset", "start"].map String.data

/-- src/trap.py `_has_trap_query_params` (lines 80–113).  Note the last
check is `len(v) > 20` where `v` ranges over `params.values()`, which are
LISTS of values (`parse_qs`), so it tests the number of values per key, not
the length of a value string. -/
def _has_trap_query_params (path query : Str) : Bool :=
  if query.isEmpty then false
  else
    let params := parseQsCore query
    let keys := params.map (fun kv => toLowerL kv.1)
    if keys.any (fun k => trapQueryKeys.contains k) then true
    else if containsSeq ("doku.php").data (toLowerL path)
        && (keys.filter (fun k => dokuKeys.contains k)).length ≥ 2 then true
    else if params.any (fun kv => actionParamKeys.contains (toLowerL kv.1)
        && kv.2.any (fun v => trapActions.contains (toLowerL v))) then true
    else if params.any (fun kv => pageParamKeys.contains (toLowerL kv.1)
        && kv.2.any (fun v =>
          match pyIntOfStr v with
          | some n => n > 500
          | none => false)) then true
    else if params.length > MAX_QUERY_PARAMS || params.any (fun kv => kv.2.length > 20) then
      true
    else false

/-- src/trap.py `is_trap` (lines 20–38).  `any([...])` is applied to a list
display, so every predicate is evaluated (updating its counters) before the
disjunction is taken; the embedded result state reflects that.  The
`except` branch (parse failure) is unreachable in the embedding. -/
def is_trap (st : TrapState) (url : Str) : Bool × TrapState :=
  let parsed := urlparseCore url
  let domain := toLowerL parsed.netloc
  let path := if parsed.path.isEmpty then ['/'] else parsed.path
  let query := parsed.query
  let b1 := _is_too_long url
  let b2 := _has_excessive_path_depth path
  let b3 := _has_admin_segments path
  let r4 := _has_repetitive_patterns path domain st.repetitionCounter
  let r5 := _is_calendar_page path domain st.calendarCounter
  let r6 := _is_path_query_overused domain path st.pathQueryCounter
  let b7 := _has_trap_query_params path query
  (b1 || b2 || b3 || r4.1 || r5.1 || r6.1 || b7, ⟨r5.2, r4.2, r6.2⟩)

/-! ## src/report.py -/

/-- `set.add` on an insertion-ordered model of a Python set. -/
def pySetAdd (s : List Str) (x : Str) : List Str :=
  if s.contains x then s else s ++ [x]

/-- The shared class-level state of `Report`. -/
structure ReportState where
  uniqueUrls : List Str
  longestPageUrl : Option Str
  longestPageWordcount : Nat
  wordCounter : List (Str × Nat)
  uciSubdomains : List (Str × Nat)
deriving DecidableEq, Repr

def initReportState : ReportState := ⟨[], none, 0, [], []⟩

/-- `urlparse(url).hostname or ""`: the netloc after the last `@`, before
the port `:`, lowercased.  (The IPv6 bracket form is not modelled; no
theorem uses it.) -/
def hostnameOf (netloc : Str) : Str :=
  let hostinfo := (splitOnChar '@' netloc).getLastD []
  let host :=
    match splitFirst ':' hostinfo with
    | none => hostinfo
    | some (h, _) => h
  toLowerL host

/-- src/report.py `Report._track_uci_subdomain` (lines 131–143). -/
def _track_uci_subdomain (subs : List (Str × Nat)) (url : Str) : List (Str × Nat) :=
  let parsed := urlparseCore url
  let hostname := hostnameOf parsed.netloc
  if ("uci.edu").data.isSuffixOf hostname then
    let sub := hostname.take (hostname.length - (".uci.edu").data.length)
    let sub := if sub.isEmpty then ("(root)").data else sub
    incrCtr subs sub
  else subs

def MAX_WORD_COUNT_PER_PAGE : Nat := 50

/-- src/report.py `Report._is_valid_word` (lines 104–129). -/
def _is_valid_word (word : Str) : Bool :=
  if word.length > 20 then false
  else if word.length ≥ 3 && word.dedup.length ≤ 2 then false
  else if word.length ≥ 6
      && word.take (word.length / 2) == (word.drop (word.length / 2)).take (word.length / 2) then
    false
  else true

/-- `collections.Counter(ws)`: frequency table in first-occurrence order. -/
def counterOf (ws : List Str) : List (Str × Nat) :=
  ws.foldl (fun d w => counterAdd d w 1) []

/-- src/report.py `Report.process_page` (lines 45–96), for the pre-tokenized
(list) input used by the scraper. -/
def process_page (st : ReportState) (url : Str) (tokens : List Str) : ReportState :=
  let urlNoFragment := (urldefragCore url).1
  let uniqueUrls := pySetAdd st.uniqueUrls urlNoFragment
  let words := tokens
  let wordCount := words.length
  let longest : Option Str × Nat :=
    if wordCount > st.longestPageWordcount then (some urlNoFragment, wordCount)
    else (st.longestPageUrl, st.longestPageWordcount)
  let validWords := words.filter _is_valid_word
  let freq := counterOf validWords
  let wc := freq.foldl
    (fun acc kv => counterAdd acc kv.1 (min kv.2 MAX_WORD_COUNT_PER_PAGE)) st.wordCounter
  let subs := _track_uci_subdomain st.uciSubdomains urlNoFragment
  ⟨uniqueUrls, longest.1, longest.2, wc, subs⟩

/-! ## src/scraper.py: bounded dedup caches and the scrape pipeline -/

def MAX_SIMHASH_CACHE : Nat := 200000
def MAX_CHECKSUM_CACHE : Nat := 200000
def SIMHASH_THRESHOLD : Nat := 3
def MIN_CHARS : Nat := 75
def MIN_TOKENS : Nat := 25

/-- `bin(n).count("1")`, i.e. the binary population count.  The fuel (first
argument of the worker) makes the recursion structural so that the kernel
can evaluate it; `n` itself always suffices as fuel. -/
def popcountAux : Nat → Nat → Nat
  | 0, _ => 0
  | fuel + 1, n => if n = 0 then 0 else n % 2 + popcountAux fuel (n / 2)

def popcount (n : Nat) : Nat := popcountAux n n

/-- src/scraper.py `hamming_distance`: `bin(x ^ y).count("1")`. -/
def hamming_distance (x y : Nat) : Nat := popcount (x ^^^ y)

/-- `deque(maxlen=m).append(x)`: drop the oldest element when full. -/
def dequeAppend (maxlen : Nat) (l : List α) (x : α) : List α :=
  if l.length = maxlen then l.tail ++ [x] else l ++ [x]

/-- `set.add` (Python sets modelled as duplicate-free lists; only
membership and size are observed). -/
def setAdd [DecidableEq α] (s : List α) (x : α) : List α :=
  if x ∈ s then s else s ++ [x]

/-- `set.clear(); set.update(xs)`. -/
def setOfList [DecidableEq α] (l : List α) : List α := l.foldl setAdd []

/-- The four module-level dedup caches of src/scraper.py (lines 44–48),
generic in the checksum type (MD5 digests are abstract). -/
structure DedupState (α : Type) where
  seenSimhashes : List Nat
  seenSimhashSet : List Nat
  seenChecksums : List α
  seenChecksumSet : List α
deriving DecidableEq, Repr

def initDedupState : DedupState α := ⟨[], [], [], []⟩

/-- src/scraper.py `_evict_if_needed` (lines 69–79): rebuild a set from its
deque only when `len(set) > len(deque) * 1.2`.  The comparison is modelled
exactly as `5*len(set) > 6*len(deque)`; the double rounding of the literal
`1.2` never changes the comparison against an integer left-hand side, since
the float product of an integer with `1.2` rounds to `6k/5` exactly
whenever the rational product is the integer `6k/5`. -/
def _evict_if_needed [DecidableEq α] (st : DedupState α) : DedupState α :=
  let st :=
    if 5 * st.seenSimhashSet.length > 6 * st.seenSimhashes.length then
      { st with seenSimhashSet := setOfList st.seenSimhashes }
    else st
  if 5 * st.seenChecksumSet.length > 6 * st.seenChecksums.length then
    { st with seenChecksumSet := setOfList st.seenChecksums }
  else st

/-- The locked dedup block of `scraper` (src/scraper.py lines 130–157):
evict, reject on exact checksum, exact simhash, or Hamming distance
`≤ SIMHASH_THRESHOLD` to one of the last 1000 simhashes, else append both
fingerprints to their deques and sets.  Returns the new cache state and
whether the fingerprints were registered. -/
def dedupCheckAndRegister [DecidableEq α] (st0 : DedupState α) (checksum : α)
    (simhash : Nat) : DedupState α × Bool :=
  let st := _evict_if_needed st0
  if checksum ∈ st.seenChecksumSet then (st, false)
  else if simhash ∈ st.seenSimhashSet then (st, false)
  else
    let recentCount := min 1000 st.seenSimhashes.length
    if (List.range recentCount).any (fun i =>
        hamming_distance simhash (st.seenSimhashes.getD (st.seenSimhashes.length - 1 - i) 0)
          ≤ SIMHASH_THRESHOLD) then (st, false)
    else
      ({ st with
          seenChecksums := dequeAppend MAX_CHECKSUM_CACHE st.seenChecksums checksum,
          seenChecksumSet := setAdd st.seenChecksumSet checksum,
          seenSimhashes := dequeAppend MAX_SIMHASH_CACHE st.seenSimhashes simhash,
          seenSimhashSet := setAdd st.seenSimhashSet simhash }, true)

/-- Maximal `[a-zA-Z]+` runs, as `re.findall(r"[a-zA-Z]+", s)`. -/
def alphaRuns : Str → List Str
  | [] => []
  | c :: rest =>
    let r := alphaRuns rest
    if c.isAlpha then
      match rest with
      | d :: _ =>
        if d.isAlpha then
          match r with
          | h :: t => (c :: h) :: t
          | [] => [[c]]
        else [c] :: r
      | [] => [[c]]
    else r

/-- src/scraper.py `tokenize` (lines 289–301), with the module's stopword
set (loaded from an optional file at import time) as a parameter. -/
def tokenize (stopwords : List Str) (text : Str) : List Str :=
  (alphaRuns (toLowerL text)).filter fun t =>
    if t.length ≤ 2 then false
    else if stopwords.contains t then false
    else if t.length > 50 then false
    else true

/-- `re.sub(r"\s+", " ", s)`: collapse each whitespace run to one space.
(Lean's `Char.isWhitespace` covers the ASCII whitespace Python's `\s`
matches; no theorem uses non-ASCII whitespace.) -/
def collapseWs : Str → Str
  | [] => []
  | [c] => if c.isWhitespace then [' '] else [c]
  | a :: b :: rest =>
    if a.isWhitespace && b.isWhitespace then collapseWs (b :: rest)
    else (if a.isWhitespace then ' ' else a) :: collapseWs (b :: rest)

/-- src/scraper.py `compute_checksum` (lines 352–355): MD5 (abstract
`md5hex`) of the lowercased, stripped, whitespace-collapsed text. -/
def compute_checksum (md5hex : Str → Str) (text : Str) : Str :=
  md5hex (collapseWs (stripWs (toLowerL text)))

/-- src/scraper.py `compute_simhash` (lines 358–381): 64 signed
accumulators updated per distinct token with frequency weighting; `sha8`
abstracts `int.from_bytes(sha256(token).digest()[:8], "big")`. -/
def compute_simhash (sha8 : Str → Nat) (tokens : List Str) : Nat :=
  if tokens.isEmpty then 0
  else
    let freq := counterOf tokens
    let v : List Int := freq.foldl
      (fun v kv =>
        let hv := sha8 kv.1
        (List.range 64).map fun i =>
          v.getD i 0 + (if (hv >>> i) % 2 = 1 then (kv.2 : Int) else -(kv.2 : Int)))
      (List.replicate 64 0)
    (List.range 64).foldl
      (fun r i => if v.getD i 0 > 0 then r ||| (1 <<< i) else r) 0

def allowedDomains : List Str :=
  ["ics.uci.edu", "cs.uci.edu", "informatics.uci.edu", "stat.uci.edu"].map String.data

def blockedExtensions : List Str :=
  ["css", "js", "bmp", "gif", "jpg", "jpeg", "ico", "png", "tif", "tiff",
   "mid", "mp2", "mp3", "mp4", "wav", "avi", "mov", "mpeg", "ram", "m4v", "mkv",
   "ogg", "ogv", "pdf", "ps", "eps", "tex", "ppt", "pptx", "doc", "docx",
   "xls", "xlsx", "data", "dat", "exe", "bz2", "tar", "msi", "bin", "7z",
   "psd", "dmg", "iso", "epub", "dll", "cnf", "tgz", "sha1", "thmx", "mso",
   "arff", "rtf", "jar", "csv", "rm", "smil", "wmv", "swf", "wma", "zip", "rar",
   "gz", "mpg", "flv", "webm", "ttf", "otf", "woff", "woff2", "eot", "sql", "db",
   "sqlite", "mdb", "log", "bak", "tmp", "temp", "cache", "class", "pyc", "o",
   "so"].map String.data

/-- src/scraper.py `is_valid` (lines 391–437). -/
def is_valid (url : Str) : Bool :=
  let parsed := urlparseCore url
  let scheme := toLowerL parsed.scheme
  if !(scheme == ("http").data || scheme == ("https").data) then false
  else
    let hostname := hostnameOf parsed.netloc
    if hostname.isEmpty then false
    else if !(allowedDomains.contains hostname)
        && !(allowedDomains.any fun d => ('.' :: d).isSuffixOf hostname) then false
    else
      let lastSeg := toLowerL ((splitOnChar '/' parsed.path).getLastD [])
      if lastSeg.contains '.' then
        !(blockedExtensions.contains ((splitOnChar '.' lastSeg).getLastD []))
      else true

/-- `resp.raw_response.headers.get("content-type","").lower()` followed by
`.split(";")[0].strip()`. -/
def contentTypeMain (ct : Str) : Str :=
  stripWs ((splitOnChar ';' (toLowerL ct)).getD 0 [])

def allowedContentTypes : List Str :=
  ["text/html", "application/xhtml+xml", "text/plain"].map String.data

/-- The inputs `scraper` receives from its collaborators: the robots
oracle, the HTTP response fields, the BeautifulSoup text extraction
(`none` models an extraction exception) and the extracted anchor links. -/
structure ScrapeResponse where
  robotsAllowed : Bool
  status : Nat
  hasRawResponse : Bool
  contentType : Str
  nulInHead : Bool
  extractedText : Option Str
  rawLinks : List Str

/-- The module-level mutable state `scraper` touches. -/
structure ScraperState where
  dedup : DedupState Str
  trap : TrapState
  report : ReportState

structure ScrapeResult where
  links : List Str
  state : ScraperState
  processedPage : Bool

/-- src/scraper.py `scraper` (lines 84–182): guards, text filters, the
dedup block, `report.process_page`, then the link loop with
`normalize_url` / `is_valid` / `is_trap` (the trap counters thread through
the loop).  `processedPage` records whether `report.process_page` ran. -/
def scraper (md5hex : Str → Str) (sha8 : Str → Nat) (stopwords : List Str)
    (st : ScraperState) (url : Str) (resp : ScrapeResponse) : ScrapeResult :=
  if !resp.robotsAllowed then ⟨[], st, false⟩
  else if !(resp.status == 200 && resp.hasRawResponse) then ⟨[], st, false⟩
  else
    let ctMain := contentTypeMain resp.contentType
    if !ctMain.isEmpty
        && !(allowedContentTypes.any fun t =>
            ctMain == t || (t ++ [';']).isPrefixOf ctMain) then ⟨[], st, false⟩
    else if resp.nulInHead then ⟨[], st, false⟩
    else
      match resp.extractedText with
      | none => ⟨[], st, false⟩
      | some text =>
        if text.isEmpty || text.length < MIN_CHARS then ⟨[], st, false⟩
        else
          let tokens := tokenize stopwords text
          if tokens.length < MIN_TOKENS then ⟨[], st, false⟩
          else
            let checksum := compute_checksum md5hex text
            let simhash := compute_simhash sha8 tokens
            let dedupResult := dedupCheckAndRegister st.dedup checksum simhash
            if !dedupResult.2 then ⟨[], { st with dedup := dedupResult.1 }, false⟩
            else
              let report' := process_page st.report url tokens
              let linkFold := resp.rawLinks.foldl
                (fun (acc : List Str × TrapState) link =>
                  let normalized := normalize_url link
                  if !(is_valid normalized) then acc
                  else
                    let tr := is_trap acc.2 normalized
                    if tr.1 then (acc.1, tr.2) else (acc.1 ++ [normalized], tr.2))
                ([], st.trap)
              ⟨linkFold.1, ⟨dedupResult.1, linkFold.2, report'⟩, true⟩

/-! ## src/crawler/frontier.py -/

/-- Modelled from the spec: `utils.normalize` — the repository's `utils`
module is not under src/.  §4.1/§4.6 describe it as producing the canonical
URL form of §3, which is what the scraper's normalizer produces; it is
modelled as that normalizer. -/
def utilsNormalize (url : Str) : Str := normalize_url url

/-- Modelled from the spec: `utils.get_urlhash` — the repository's `utils`
module is not under src/.  §3 describes the urlhash as a digest of the
canonical URL used as the primary key, with "url ... unique by
construction"; the digest is modelled as an injective keying function. -/
def get_urlhash (url : Str) : Str := url

structure UrlRow where
  urlhash : Str
  url : Str
  completed : Bool
deriving DecidableEq, Repr

/-- The durable table plus the in-memory queue of `Frontier`;
`enqueued` records the history of `to_be_downloaded.put` events. -/
structure FrontierState where
  rows : List UrlRow
  queue : List Str
  enqueued : List Str
deriving DecidableEq, Repr

def initFrontierState : FrontierState := ⟨[], [], []⟩

/-- src/crawler/frontier.py `Frontier.add_url` (lines 176–200): normalize,
hash, `INSERT OR IGNORE` on the urlhash primary key, and enqueue only when
a row was actually inserted (`cursor.rowcount > 0`). -/
def add_url (st : FrontierState) (url0 : Str) : FrontierState :=
  let url := utilsNormalize url0
  let urlhash := get_urlhash url
  if st.rows.any (fun r => r.urlhash == urlhash) then st
  else
    { rows := st.rows ++ [⟨urlhash, url, false⟩],
      queue := st.queue ++ [url],
      enqueued := st.enqueued ++ [url] }

/-- src/crawler/frontier.py `Frontier.mark_url_complete` (lines 202–227):
SELECT, then `UPDATE urls SET completed = 1 WHERE urlhash = ?`; the second
component records whether the missing-row error was logged.  The function
is total: the Python code catches `sqlite3.Error` and never raises. -/
def mark_url_complete (st : FrontierState) (url : Str) : FrontierState × Bool :=
  let urlhash := get_urlhash url
  let missing := !(st.rows.any (fun r => r.urlhash == urlhash))
  ({ st with
      rows := st.rows.map fun r =>
        if r.urlhash == urlhash then { r with completed := true } else r },
   missing)

/-- src/crawler/frontier.py `Frontier.get_tbd_url`: non-blocking pop,
`none` when the queue is empty. -/
def get_tbd_url (st : FrontierState) : Option Str × FrontierState :=
  match st.queue with
  | [] => (none, st)
  | u :: rest => (some u, { st with queue := rest })

/-- The frontier operations a crawl session may interleave (none deletes
rows; the schema has no delete). -/
inductive FrontierOp
  | addUrl (url : Str)
  | markComplete (url : Str)
  | getTbd
deriving DecidableEq, Repr

def applyFrontierOp (st : FrontierState) : FrontierOp → FrontierState
  | .addUrl u => add_url st u
  | .markComplete u => (mark_url_complete st u).1
  | .getTbd => (get_tbd_url st).2

def runFrontier (ops : List FrontierOp) : FrontierState :=
  ops.foldl applyFrontierOp initFrontierState

/-! ## src/crawler/worker.py -/

inductive WorkerEvent
  | download (url : Str)
  | scrapeCall (url : Str)
  | addUrlCall (url : Str)
  | markComplete (url : Str)
deriving DecidableEq, Repr

inductive WorkerControl
  | continueLoop
  | breakLoop
deriving DecidableEq, Repr

/-- One iteration of `Worker.run` (src/crawler/worker.py lines 65–111).
`q1` is the frontier queue at the first `get_tbd_url`, `q2` the queue at
the retry after the 5-second sleep (other threads may enqueue in between;
when the first pop succeeds the retry never happens and `q2` is unused).
`scrapeResult` abstracts the links `scraper.scraper` returns.  The result
is the remaining queue, the download/scrape/add/mark events of the
iteration, and whether the loop continues. -/
def workerIteration (q1 q2 : List Str) (scrapeResult : Str → List Str) :
    List Str × List WorkerEvent × WorkerControl :=
  match q1 with
  | [] =>
    match q2 with
    | [] => ([], [], .breakLoop)
    | _ :: rest => (rest, [], .continueLoop)
  | u :: rest =>
    let links := scrapeResult u
    (rest,
      .download u :: .scrapeCall u :: links.map .addUrlCall ++ [.markComplete u],
      .continueLoop)

/-! ## The simhash stream used to exercise the cache bound (claim C1)

A family of 64-bit values that are pairwise distinct and, within any
window of 1000 consecutive indices, pairwise at Hamming distance at least
4 — so a stream of pages with these simhashes (and fresh checksums)
passes every dedup check. -/

/-- Spread each bit of `n` into a 4-bit block (a distance-4 repetition
code on 12-bit values). -/
def rep4 : Nat → Nat
  | 0 => 0
  | n + 1 => ((n + 1) % 2) * 15 + 16 * rep4 ((n + 1) / 2)
decreasing_by exact Nat.div_lt_self (Nat.succ_pos n) (by decide)

/-- Simhash of the `k`-th synthetic page: a distance-4 code on `k mod 4096`
in the low 48 bits, disambiguated by `k / 4096` in the high bits. -/
def simStream (k : Nat) : Nat := rep4 (k % 4096) + 2 ^ 48 * (k / 4096)

/-- The dedup-cache state after `scrape` has processed `n` synthetic pages
with pairwise-distinct checksums `0, 1, 2, …` and simhashes `simStream`. -/
def c1Run (n : Nat) : DedupState Nat :=
  (List.range n).foldl (fun st k => (dedupCheckAndRegister st k (simStream k)).1)
    initDedupState

/-- The expected cache state while the FIFOs are below capacity: deques and
sets both hold exactly the first `m` fingerprints. -/
def c1State (m : Nat) : DedupState Nat :=
  ⟨(List.range m).map simStream, (List.range m).map simStream,
   List.range m, List.range m⟩

/-! ## Concrete scenario inputs used by the theorems below -/

/-- Report state after one `process_page` call each for pages on the hosts
`www.ics.uci.edu`, `ics.uci.edu` and `stat.uci.edu`. -/
def c3Report : ReportState :=
  process_page
    (process_page
      (process_page initReportState ("http://www.ics.uci.edu/a").data [("alpha").data])
      ("http://ics.uci.edu/b").data [("beta").data])
    ("http://stat.uci.edu/c").data [("gamma").data]

/-- A URL whose single query parameter has a 25-character value. -/
def c2Url : Str := ("http://a.com/x?q=").data ++ List.replicate 25 'a'

/-- A URL whose query repeats the key `k` 21 times (21 values for one key). -/
def c2wUrl : Str :=
  ("http://a.com/x?").data ++ List.intercalate ("&").data (List.replicate 21 ("k=v").data)

/-- A parseable URL of length 2013 > 2000. -/
def c4Url : Str := ("http://a.com/").data ++ List.replicate 2000 'a'

/-- Observation: how many store rows are keyed by `u`'s urlhash. -/
def rowKeyCount (st : FrontierState) (u : Str) : Nat :=
  st.rows.countP (fun r => r.urlhash == get_urlhash (utilsNormalize u))

/-- Observation: how many enqueues of `u`'s canonical form were emitted. -/
def enqCount (st : FrontierState) (u : Str) : Nat :=
  st.enqueued.count (utilsNormalize u)

/-- A concrete URL for the frontier witness. -/
def c6U : Str := ("http://ics.uci.edu/x").data

/-- A page text of 124 characters and 25 tokens. -/
def c7Text : Str := List.intercalate (" ").data (List.replicate 25 ("abcd").data)

/-- A response carrying `c7Text` that passes all the scraper's filters. -/
def c7Resp : ScrapeResponse :=
  ⟨true, 200, true, ("text/html").data, false, some c7Text, []⟩

/-- Concrete digest functions for the scenario (any functions work). -/
def c7Md5 : Str → Str := fun s => s

def c7Sha : Str → Nat := fun _ => 0

def c7St : ScraperState := ⟨initDedupState, initTrapState, initReportState⟩

end Crawler

namespace Crawler

/-! # Theorems -/

/-- Claim C9: `normalize` applied to `HTTP://WWW.ICS.UCI.EDU/About?b=2&a=1#top`
returns exactly `http://www.ics.uci.edu/About/?a=1&b=2` — scheme and host
lowercased, fragment removed, query sorted by (key, value), trailing slash
added since the last segment has no extension, path case preserved. -/
theorem C9_normalize_scenario :
    normalize_url ("HTTP://WWW.ICS.UCI.EDU/About?b=2&a=1#top").data
      = ("http://www.ics.uci.edu/About/?a=1&b=2").data := by decide

/-- Claim C3, counterexample: processing pages on hosts `www.ics.uci.edu`,
`ics.uci.edu` and `stat.uci.edu` populates the subdomain counter with the
keys `www.ics`, `ics`, `stat` — the host `ics.uci.edu` contributes the key
`ics`, and the key `(root)` the claim requires is absent. -/
theorem C3_subdomain_counterexample :
    c3Report.uciSubdomains.map Prod.fst
        = [("www.ics").data, ("ics").data, ("stat").data]
      ∧ ("(root)").data ∉ c3Report.uciSubdomains.map Prod.fst := by decide

/-- Claim C3, amended: the three `process_page` invocations populate the
subdomain counter with exactly the keys `www.ics`, `ics` and `stat` (each
with count 1); only a host exactly equal to `uci.edu` maps to `(root)`. -/
theorem C3_subdomain_keys :
    c3Report.uciSubdomains
        = [(("www.ics").data, 1), (("ics").data, 1), (("stat").data, 1)]
      ∧ (_track_uci_subdomain [] ("http://uci.edu/a").data).map Prod.fst
        = [("(root)").data] := by decide

/-- Claim C2, counterexample: `c2Url` has a query parameter whose single
value is 25 characters long, yet `is_trap` (from the initial counter state)
returns `false`: the code's last check reads `len(v) > 20` over
`params.values()`, whose elements are lists of values, not value strings. -/
theorem C2_counterexample :
    (∃ kv ∈ parseQsCore (urlparseCore c2Url).query, ∃ v ∈ kv.2, v.length > 20)
      ∧ (is_trap initTrapState c2Url).1 = false := by decide

/-- Helper for C2: `_has_trap_query_params` returns true whenever some
query key carries more than 20 values. -/
theorem trap_query_params_of_many_values (p q : Str)
    (h : ∃ kv ∈ parseQsCore q, kv.2.length > 20) :
    _has_trap_query_params p q = true := by
  obtain ⟨kv, hmem, hlen⟩ := h
  have hq : q.isEmpty = false := by
    cases q with
    | nil => simp [parseQsCore, parseQslCore, splitOnChar] at hmem
    | cons c cs => rfl
  unfold _has_trap_query_params
  rw [hq]
  simp only [Bool.false_eq_true, if_false]
  split_ifs with h1 h2 h3 h4 h5
  · rfl
  · rfl
  · rfl
  · rfl
  · rfl
  · exact absurd (Bool.or_eq_true_iff.mpr (Or.inr
      (List.any_eq_true.mpr ⟨kv, hmem, decide_eq_true hlen⟩))) h5

/-- Claim C2, amended: for every URL whose query string contains a
parameter key with more than 20 associated values, `is_trap` returns true
(in every counter state). -/
theorem C2_query_values_trap (st : TrapState) (url : Str)
    (h : ∃ kv ∈ parseQsCore (urlparseCore url).query, kv.2.length > 20) :
    (is_trap st url).1 = true := by
  have hb7 := trap_query_params_of_many_values
    (if (urlparseCore url).path.isEmpty then ['/'] else (urlparseCore url).path)
    (urlparseCore url).query h
  simp only [List.isEmpty_eq_true] at hb7
  simp [is_trap, hb7]

/-- Witness for C2 (amended) at `c2wUrl` (key `k` carries 21 values). -/
theorem C2_query_values_trap_witness :
    (∃ kv ∈ parseQsCore (urlparseCore c2wUrl).query, kv.2.length > 20)
      ∧ (is_trap initTrapState c2wUrl).1 = true :=
  ⟨by decide, C2_query_values_trap initTrapState c2wUrl (by decide)⟩

end Crawler

namespace Crawler

/-- Helper: a URL longer than `MAX_URL_LENGTH` makes `is_trap`'s first
disjunct true, hence the verdict true. -/
theorem is_trap_true_of_long (st : TrapState) (url : Str)
    (h : url.length > MAX_URL_LENGTH) : (is_trap st url).1 = true := by
  have h1 : _is_too_long url = true := by
    unfold _is_too_long; exact decide_eq_true h
  simp [is_trap, h1]

/-- Helper: every `is_trap` call increments the per-(host, lowercased-path)
visit counter, whatever the verdict: `any([...])` evaluates all its list
elements, and `_is_path_query_overused` increments unconditionally. -/
theorem is_trap_pathQuery_incr (st : TrapState) (url : Str) :
    (is_trap st url).2.pathQueryCounter
      = incrTbl st.pathQueryCounter (toLowerL (urlparseCore url).netloc)
          (toLowerL (if (urlparseCore url).path.isEmpty then ['/']
            else (urlparseCore url).path)) := rfl

/-- Helper: the length of `c4Url` is 2013. -/
theorem c4Url_length : c4Url.length = 2013 := by
  show (("http://a.com/").data ++ List.replicate 2000 'a').length = 2013
  rw [List.length_append, List.length_replicate]
  decide

/-- Claim C4, counterexample: `c4Url` is parseable and longer than 2000
characters; `is_trap` returns true, but the per-host counters are NOT left
unchanged — `any([...])` evaluates every predicate eagerly, and the
per-(host,path) visit counter is incremented. -/
theorem C4_counterexample :
    c4Url.length > MAX_URL_LENGTH
      ∧ (is_trap initTrapState c4Url).1 = true
      ∧ (is_trap initTrapState c4Url).2 ≠ initTrapState := by
  have hlen : c4Url.length > MAX_URL_LENGTH := by rw [c4Url_length]; decide
  refine ⟨hlen, is_trap_true_of_long _ _ hlen, ?_⟩
  intro heq
  have h2 := congrArg TrapState.pathQueryCounter heq
  rw [is_trap_pathQuery_incr] at h2
  simp [initTrapState, incrTbl] at h2

/-- Claim C4, amended: for every parseable URL `u` with length greater than
2000 characters, `is_trap u` returns true; but the disjunction is evaluated
eagerly over a list, not short-circuited, so the call updates per-host
counters: the per-(host,path) visit counter for `u`'s host and lowercased
path is incremented (and the calendar/repetition counters are updated
whenever their patterns match). -/
theorem C4_long_url_trap (st : TrapState) (url : Str)
    (h : url.length > MAX_URL_LENGTH) :
    (is_trap st url).1 = true
      ∧ (is_trap st url).2.pathQueryCounter
          = incrTbl st.pathQueryCounter (toLowerL (urlparseCore url).netloc)
              (toLowerL (if (urlparseCore url).path.isEmpty then ['/']
                else (urlparseCore url).path)) :=
  ⟨is_trap_true_of_long st url h, is_trap_pathQuery_incr st url⟩

/-- Witness for C4 (amended) at the 2013-character URL `c4Url`. -/
theorem C4_long_url_trap_witness :
    c4Url.length > MAX_URL_LENGTH
      ∧ ((is_trap initTrapState c4Url).1 = true
        ∧ (is_trap initTrapState c4Url).2.pathQueryCounter
            = incrTbl initTrapState.pathQueryCounter
                (toLowerL (urlparseCore c4Url).netloc)
                (toLowerL (if (urlparseCore c4Url).path.isEmpty then ['/']
                  else (urlparseCore c4Url).path))) :=
  ⟨by rw [c4Url_length]; decide,
   C4_long_url_trap initTrapState c4Url (by rw [c4Url_length]; decide)⟩

/-- Claim C8: `mark_url_complete` never raises (the embedding is total, and
the source catches `sqlite3.Error`); when a row with the url's hash exists,
the call ends with every matching row's completed field set (others
unchanged); when no row exists, an error is logged and the store is left
unchanged.  The queue is untouched in both cases. -/
theorem C8_mark_url_complete (st : FrontierState) (url : Str) :
    (mark_url_complete st url).1.rows
        = (if st.rows.any (fun r => r.urlhash == get_urlhash url) then
            st.rows.map fun r =>
              if r.urlhash == get_urlhash url then { r with completed := true } else r
          else st.rows)
      ∧ (mark_url_complete st url).1.queue = st.queue
      ∧ (mark_url_complete st url).2
          = !(st.rows.any fun r => r.urlhash == get_urlhash url) := by
  refine ⟨?_, rfl, rfl⟩
  by_cases h : st.rows.any (fun r => r.urlhash == get_urlhash url) = true
  · rw [if_pos h]; rfl
  · rw [if_neg h]
    have hall : ∀ r ∈ st.rows, (r.urlhash == get_urlhash url) = false := by
      intro r hr
      by_contra hc
      exact h (List.any_eq_true.mpr ⟨r, hr, by
        revert hc; cases r.urlhash == get_urlhash url <;> simp⟩)
    show st.rows.map _ = st.rows
    generalize hl : st.rows = l at hall
    clear hl h
    induction l with
    | nil => rfl
    | cons a t ih =>
      simp only [List.map_cons, hall a (List.mem_cons_self a t), if_false,
        Bool.false_eq_true, List.cons.injEq, true_and]
      exact ih fun r hr => hall r (List.mem_cons_of_mem a hr)

/-- Claim C10: in the worker loop, when the first `get_tbd_url` returns
null and the retry after the 5-second sleep returns `u`, the iteration
removes `u` from the queue, performs no download, no scrape, no
`add_url` and no `mark_url_complete` (empty event list), and continues
with the next loop iteration. -/
theorem C10_worker_retry_drops_url (u : Str) (rest : List Str)
    (f : Str → List Str) :
    workerIteration [] (u :: rest) f = (rest, [], WorkerControl.continueLoop) := rfl

end Crawler

namespace Crawler

/-- Helper: `add_url` on a state already holding the urlhash is a no-op
(INSERT OR IGNORE inserts nothing, so nothing is enqueued). -/
theorem add_url_noop (st : FrontierState) (u : Str)
    (h : st.rows.any (fun r => r.urlhash == get_urlhash (utilsNormalize u)) = true) :
    add_url st u = st := by
  unfold add_url
  rw [if_pos h]

/-- Helper: after `add_url st u` the store holds a row keyed by `u`'s
urlhash. -/
theorem add_url_rowKeyCount_pos (st : FrontierState) (u : Str) :
    1 ≤ rowKeyCount (add_url st u) u := by
  unfold add_url rowKeyCount
  by_cases h : st.rows.any (fun r => r.urlhash == get_urlhash (utilsNormalize u)) = true
  · rw [if_pos h]
    obtain ⟨r, hr, hp⟩ := List.any_eq_true.mp h
    exact List.countP_pos_iff.mpr ⟨r, hr, hp⟩
  · rw [if_neg h]
    simp [List.countP_append, List.countP_cons]

/-- Helper: the effect of one frontier operation on the row count keyed by
`u`'s urlhash and on the count of enqueues of `u`'s canonical form: either
both are unchanged, or (for an `add_url u` inserting the row) both go from
0 resp. n to 1 resp. n+1. -/
theorem frontier_step_counts (u : Str) (st : FrontierState) (op : FrontierOp)
    (hop : ∀ v, op = FrontierOp.addUrl v → v = u ∨ utilsNormalize v ≠ utilsNormalize u) :
    (rowKeyCount (applyFrontierOp st op) u = rowKeyCount st u
       ∧ enqCount (applyFrontierOp st op) u = enqCount st u)
    ∨ (rowKeyCount st u = 0
       ∧ rowKeyCount (applyFrontierOp st op) u = 1
       ∧ enqCount (applyFrontierOp st op) u = enqCount st u + 1) := by
  cases op with
  | getTbd =>
    left
    simp only [applyFrontierOp]
    unfold get_tbd_url rowKeyCount enqCount
    cases st.queue <;> simp
  | markComplete x =>
    left
    simp only [applyFrontierOp]
    unfold mark_url_complete rowKeyCount enqCount
    refine ⟨?_, rfl⟩
    simp only [List.countP_map]
    apply List.countP_congr
    intro r _
    by_cases hx : (r.urlhash == get_urlhash x) = true <;>
      simp [Function.comp, hx]
  | addUrl v =>
    simp only [applyFrontierOp]
    rcases hop v rfl with rfl | hne
    · by_cases h : st.rows.any (fun r => r.urlhash == get_urlhash (utilsNormalize v)) = true
      · left
        rw [add_url_noop st v h]
        exact ⟨rfl, rfl⟩
      · right
        have h0 : rowKeyCount st v = 0 := by
          unfold rowKeyCount
          exact List.countP_eq_zero.mpr fun a ha hp =>
            h (List.any_eq_true.mpr ⟨a, ha, hp⟩)
        refine ⟨h0, ?_, ?_⟩
        · unfold add_url rowKeyCount
          rw [if_neg h]
          simp only [List.countP_append, List.countP_cons, List.countP_nil,
            beq_self_eq_true, if_true]
          unfold rowKeyCount at h0
          omega
        · unfold add_url enqCount
          rw [if_neg h]
          simp [List.count_append]
    · left
      unfold add_url rowKeyCount enqCount
      by_cases h : st.rows.any (fun r => r.urlhash == get_urlhash (utilsNormalize v)) = true
      · rw [if_pos h]; exact ⟨rfl, rfl⟩
      · rw [if_neg h]
        have hb : (utilsNormalize v == utilsNormalize u) = false :=
          beq_eq_false_iff_ne.mpr hne
        constructor
        · simp [List.countP_append, List.countP_cons, get_urlhash, hb]
        · simp [List.count_append, List.count_singleton, get_urlhash, hb]

/-- Helper: running a list of frontier operations preserves the coupling
`rowKeyCount = enqCount`, keeps the row count at most one, never removes
the row, and guarantees the row once an `add_url u` occurs. -/
theorem frontier_run_counts (u : Str) : ∀ (ops : List FrontierOp) (st : FrontierState),
    (∀ v, FrontierOp.addUrl v ∈ ops → v = u ∨ utilsNormalize v ≠ utilsNormalize u) →
    rowKeyCount st u = enqCount st u →
    rowKeyCount st u ≤ 1 →
    rowKeyCount (ops.foldl applyFrontierOp st) u
        = enqCount (ops.foldl applyFrontierOp st) u
      ∧ rowKeyCount (ops.foldl applyFrontierOp st) u ≤ 1
      ∧ rowKeyCount st u ≤ rowKeyCount (ops.foldl applyFrontierOp st) u
      ∧ (FrontierOp.addUrl u ∈ ops → 1 ≤ rowKeyCount (ops.foldl applyFrontierOp st) u) := by
  intro ops
  induction ops with
  | nil =>
    intro st _ hcouple hle
    refine ⟨hcouple, hle, le_refl _, ?_⟩
    intro hmem
    exact absurd hmem (List.not_mem_nil _)
  | cons op rest ih =>
    intro st hops hcouple hle
    have hop : ∀ v, op = FrontierOp.addUrl v → v = u ∨ utilsNormalize v ≠ utilsNormalize u :=
      fun v hv => hops v (hv ▸ List.mem_cons_self op rest)
    have hrest : ∀ v, FrontierOp.addUrl v ∈ rest → v = u ∨ utilsNormalize v ≠ utilsNormalize u :=
      fun v hv => hops v (List.mem_cons_of_mem op hv)
    have hstep := frontier_step_counts u st op hop
    simp only [List.foldl_cons]
    rcases hstep with ⟨he1, he2⟩ | ⟨h0, h1, h2⟩
    · have := ih (applyFrontierOp st op) hrest (he1.trans (hcouple.trans he2.symm))
        (he1 ▸ hle)
      refine ⟨this.1, this.2.1, he1 ▸ this.2.2.1, ?_⟩
      intro hmem
      rcases List.mem_cons.mp hmem with hopu | hmem'
      · rcases hop u (by rw [hopu]) with _ | hcon
        · have hpos : 1 ≤ rowKeyCount (applyFrontierOp st op) u := by
            rw [← hopu]
            exact add_url_rowKeyCount_pos st u
          exact le_trans hpos this.2.2.1
        · exact absurd rfl hcon
      · exact this.2.2.2 hmem'
    · have := ih (applyFrontierOp st op) hrest (by omega) (by omega)
      refine ⟨this.1, this.2.1, ?_, ?_⟩
      · omega
      · intro _
        have := this.2.2.1
        omega

/-- Claim C6 (utils spec-modelled): for every URL `u`, after any operation
sequence that contains at least one `add_url u` — interleaved arbitrarily
with `mark_url_complete`, `get_tbd_url`, and `add_url` of URLs with a
different canonical form (no frontier operation deletes rows) — the
durable store contains exactly one row keyed by `u`'s urlhash, exactly one
enqueue of `u`'s canonical form was emitted over the whole run, and any
further `add_url u` is a no-op on the state. -/
theorem C6_add_url_once (ops : List FrontierOp) (u : Str)
    (hin : FrontierOp.addUrl u ∈ ops)
    (hothers : ∀ v, FrontierOp.addUrl v ∈ ops →
      v = u ∨ utilsNormalize v ≠ utilsNormalize u) :
    rowKeyCount (runFrontier ops) u = 1
      ∧ enqCount (runFrontier ops) u = 1
      ∧ ∀ st : FrontierState,
          st.rows.any (fun r => r.urlhash == get_urlhash (utilsNormalize u)) = true →
          add_url st u = st := by
  have h := frontier_run_counts u ops initFrontierState hothers rfl
    (by simp [rowKeyCount, initFrontierState])
  have hpos := h.2.2.2 hin
  have hle1 := h.2.1
  have hcouple := h.1
  have h1 : rowKeyCount (runFrontier ops) u = 1 := by
    unfold runFrontier
    omega
  refine ⟨h1, ?_, fun st hst => add_url_noop st u hst⟩
  unfold runFrontier at h1 ⊢
  omega

/-- Witness for C6: two `add_url` calls with the same URL leave one row and
one enqueue, and a further `add_url` is a no-op. -/
theorem C6_add_url_once_witness :
    rowKeyCount (runFrontier [FrontierOp.addUrl c6U, FrontierOp.addUrl c6U]) c6U = 1
      ∧ enqCount (runFrontier [FrontierOp.addUrl c6U, FrontierOp.addUrl c6U]) c6U = 1
      ∧ add_url (runFrontier [FrontierOp.addUrl c6U]) c6U
          = runFrontier [FrontierOp.addUrl c6U] := by
  have H := C6_add_url_once [FrontierOp.addUrl c6U, FrontierOp.addUrl c6U] c6U
    (List.mem_cons_self _ _)
    (by
      intro v hv
      simp only [List.mem_cons, List.not_mem_nil, or_false] at hv
      rcases hv with hv | hv <;>
        exact Or.inl (FrontierOp.addUrl.injEq v c6U ▸ hv))
  exact ⟨H.1, H.2.1, H.2.2 _ (by decide)⟩

end Crawler

namespace Crawler

/-- Helper: an element just appended to a bounded deque is in it. -/
theorem mem_dequeAppend_self (m : Nat) (l : List α) (x : α) :
    x ∈ dequeAppend m l x := by
  unfold dequeAppend
  split <;> simp

/-- Helper: membership after appending to a bounded deque. -/
theorem mem_dequeAppend (m : Nat) (l : List α) (x y : α)
    (h : y ∈ dequeAppend m l x) : y ∈ l ∨ y = x := by
  unfold dequeAppend at h
  split at h
  · rcases List.mem_append.mp h with h' | h'
    · exact Or.inl (List.mem_of_mem_tail h')
    · exact Or.inr (List.mem_singleton.mp h')
  · rcases List.mem_append.mp h with h' | h'
    · exact Or.inl h'
    · exact Or.inr (List.mem_singleton.mp h')

/-- Helper: membership in `set.add`. -/
theorem mem_setAdd_iff [DecidableEq α] (s : List α) (x y : α) :
    y ∈ setAdd s x ↔ y ∈ s ∨ y = x := by
  unfold setAdd
  by_cases h : x ∈ s
  · rw [if_pos h]
    exact ⟨Or.inl, fun hy => hy.elim id (fun he => he ▸ h)⟩
  · rw [if_neg h]
    simp

/-- Helper: membership in a rebuilt set is membership in the source list. -/
theorem mem_setOfList [DecidableEq α] (l : List α) (y : α) :
    y ∈ setOfList l ↔ y ∈ l := by
  have key : ∀ (l acc : List α), y ∈ l.foldl setAdd acc ↔ y ∈ acc ∨ y ∈ l := by
    intro l
    induction l with
    | nil => intro acc; simp
    | cons a t ih =>
      intro acc
      rw [List.foldl_cons, ih, mem_setAdd_iff]
      simp only [List.mem_cons]
      tauto
  unfold setOfList
  rw [key]
  simp

/-- Helper: `_evict_if_needed` never touches the deques. -/
theorem evict_checksums_eq [DecidableEq α] (st : DedupState α) :
    (_evict_if_needed st).seenChecksums = st.seenChecksums := by
  simp only [_evict_if_needed]
  split <;> split <;> rfl

/-- Helper: an element present in both the checksum deque and set is still
in the set after `_evict_if_needed` (a rebuild keeps all deque elements). -/
theorem evict_mem_checksumSet [DecidableEq α] (st : DedupState α) (x : α)
    (hd : x ∈ st.seenChecksums) (hs : x ∈ st.seenChecksumSet) :
    x ∈ (_evict_if_needed st).seenChecksumSet := by
  simp only [_evict_if_needed]
  split <;> split <;> first
    | exact hs
    | exact (mem_setOfList _ _).mpr hd

/-- Helper: registration puts the checksum into both deque and set. -/
theorem dedup_register_mem [DecidableEq α] (st : DedupState α) (c : α) (s : Nat)
    (h : (dedupCheckAndRegister st c s).2 = true) :
    c ∈ (dedupCheckAndRegister st c s).1.seenChecksums
      ∧ c ∈ (dedupCheckAndRegister st c s).1.seenChecksumSet := by
  simp only [dedupCheckAndRegister] at h ⊢
  split_ifs at h ⊢ with h1 h2 h3
  exact ⟨mem_dequeAppend_self _ _ _, (mem_setAdd_iff _ _ _).mpr (Or.inr rfl)⟩

/-- Helper: a checksum already present in both the deque and the set is
rejected by the dedup block (the state may still be resynced by the evict
step, but the flag is false). -/
theorem dedup_reject_of_mem [DecidableEq α] (st : DedupState α) (c : α) (s : Nat)
    (hd : c ∈ st.seenChecksums) (hs : c ∈ st.seenChecksumSet) :
    (dedupCheckAndRegister st c s).2 = false := by
  simp only [dedupCheckAndRegister]
  rw [if_pos (evict_mem_checksumSet st c hd hs)]

set_option maxHeartbeats 2000000 in
/-- Helper: when `scraper` processed a page, the page text's checksum is in
both the checksum deque and the checksum set afterwards. -/
theorem scraper_processed_mem (md5hex : Str → Str) (sha8 : Str → Nat)
    (stopwords : List Str) (st : ScraperState) (url : Str)
    (resp : ScrapeResponse) (t : Str)
    (ht : resp.extractedText = some t)
    (hreg : (scraper md5hex sha8 stopwords st url resp).processedPage = true) :
    compute_checksum md5hex t
        ∈ (scraper md5hex sha8 stopwords st url resp).state.dedup.seenChecksums
      ∧ compute_checksum md5hex t
        ∈ (scraper md5hex sha8 stopwords st url resp).state.dedup.seenChecksumSet := by
  simp only [scraper] at hreg ⊢
  rw [ht] at hreg ⊢
  dsimp only at hreg ⊢
  split_ifs at hreg ⊢ with h1 h2 h3 h4 h5 h6 h7
  have hflag : (dedupCheckAndRegister st.dedup (compute_checksum md5hex t)
      (compute_simhash sha8 (tokenize stopwords t))).2 = true := by
    revert h7
    cases (dedupCheckAndRegister st.dedup (compute_checksum md5hex t)
      (compute_simhash sha8 (tokenize stopwords t))).2 <;> simp
  exact dedup_register_mem _ _ _ hflag

set_option maxHeartbeats 2000000 in
/-- Helper: a scrape whose text checksum is already in the checksum deque
and set yields no links and does not call `process_page`: every early
rejection returns that way, and the dedup block rejects the checksum. -/
theorem scraper_rejects_seen (md5hex : Str → Str) (sha8 : Str → Nat)
    (stopwords : List Str) (st2 : ScraperState) (url : Str)
    (resp : ScrapeResponse) (t : Str)
    (ht : resp.extractedText = some t)
    (hd : compute_checksum md5hex t ∈ st2.dedup.seenChecksums)
    (hs : compute_checksum md5hex t ∈ st2.dedup.seenChecksumSet) :
    (scraper md5hex sha8 stopwords st2 url resp).links = []
      ∧ (scraper md5hex sha8 stopwords st2 url resp).processedPage = false := by
  simp only [scraper]
  rw [ht]
  dsimp only
  split_ifs with g1 g2 g3 g4 g5 g6 g7
  all_goals try exact ⟨rfl, rfl⟩
  exfalso
  have hrej := dedup_reject_of_mem st2.dedup (compute_checksum md5hex t)
    (compute_simhash sha8 (tokenize stopwords t)) hd hs
  exact g7 (by rw [hrej]; rfl)

/-- Claim C7: if `scrape` is called twice (possibly with different URLs) on
responses whose extracted visible texts normalize to the same checksum, and
the first call passed all filters and registered its fingerprints
(`processedPage = true`), then the second call returns the empty link list
and does not invoke `process_page` on the report aggregator. -/
theorem C7_exact_dedup (md5hex : Str → Str) (sha8 : Str → Nat)
    (stopwords : List Str) (st : ScraperState) (url1 url2 : Str)
    (resp1 resp2 : ScrapeResponse) (t1 t2 : Str)
    (h1 : resp1.extractedText = some t1)
    (h2 : resp2.extractedText = some t2)
    (hsum : compute_checksum md5hex t2 = compute_checksum md5hex t1)
    (hreg : (scraper md5hex sha8 stopwords st url1 resp1).processedPage = true) :
    (scraper md5hex sha8 stopwords
        (scraper md5hex sha8 stopwords st url1 resp1).state url2 resp2).links = []
      ∧ (scraper md5hex sha8 stopwords
          (scraper md5hex sha8 stopwords st url1 resp1).state url2 resp2).processedPage
        = false := by
  obtain ⟨hmemD, hmemS⟩ :=
    scraper_processed_mem md5hex sha8 stopwords st url1 resp1 t1 h1 hreg
  rw [← hsum] at hmemD hmemS
  exact scraper_rejects_seen md5hex sha8 stopwords _ url2 resp2 t2 h2 hmemD hmemS

end Crawler

namespace Crawler

set_option maxRecDepth 4000 in
/-- Witness for C7: the same page text scraped twice — the first scrape
registers and processes the page, the second returns no links and does not
call `process_page`. -/
theorem C7_exact_dedup_witness :
    c7Resp.extractedText = some c7Text
      ∧ (scraper c7Md5 c7Sha [] c7St ("http://ics.uci.edu/a").data c7Resp).processedPage
        = true
      ∧ (scraper c7Md5 c7Sha []
          (scraper c7Md5 c7Sha [] c7St ("http://ics.uci.edu/a").data c7Resp).state
          ("http://ics.uci.edu/b").data c7Resp).links = []
      ∧ (scraper c7Md5 c7Sha []
          (scraper c7Md5 c7Sha [] c7St ("http://ics.uci.edu/a").data c7Resp).state
          ("http://ics.uci.edu/b").data c7Resp).processedPage = false := by
  have H := C7_exact_dedup c7Md5 c7Sha [] c7St ("http://ics.uci.edu/a").data
    ("http://ics.uci.edu/b").data c7Resp c7Resp c7Text c7Text rfl rfl rfl (by decide)
  exact ⟨rfl, by decide, H.1, H.2⟩

end Crawler

namespace Crawler

/-! ### Arithmetic facts about `popcount`, `rep4` and `simStream`,
used to drive the bounded cache past its capacity (claim C1). -/

theorem popcountAux_zero : ∀ f, popcountAux f 0 = 0
  | 0 => rfl
  | _ + 1 => rfl

theorem popcountAux_succ (f n : Nat) :
    popcountAux (f + 1) n = if n = 0 then 0 else n % 2 + popcountAux f (n / 2) := rfl

theorem popcountAux_congr : ∀ (f g n : Nat), n ≤ f → n ≤ g →
    popcountAux f n = popcountAux g n := by
  intro f
  induction f with
  | zero =>
    intro g n hf _
    have : n = 0 := by omega
    subst this
    rw [popcountAux_zero, popcountAux_zero]
  | succ f ih =>
    intro g n hf hg
    by_cases h0 : n = 0
    · subst h0
      rw [popcountAux_zero, popcountAux_zero]
    · cases g with
      | zero => omega
      | succ g =>
        rw [popcountAux_succ, popcountAux_succ, if_neg h0, if_neg h0]
        congr 1
        exact ih g (n / 2) (by omega) (by omega)

theorem popcount_rec (n : Nat) : popcount n = n % 2 + popcount (n / 2) := by
  cases n with
  | zero => rfl
  | succ m =>
    unfold popcount
    rw [popcountAux_succ, if_neg (Nat.succ_ne_zero m)]
    congr 1
    exact popcountAux_congr m ((m + 1) / 2) ((m + 1) / 2) (by omega) (le_refl _)

theorem popcount_pos : ∀ n : Nat, n ≠ 0 → 0 < popcount n := by
  intro n
  induction n using Nat.strong_induction_on with
  | _ n ih =>
    intro hn
    rw [popcount_rec]
    rcases Nat.mod_two_eq_zero_or_one n with h | h
    · have h2 : n / 2 ≠ 0 := by omega
      have := ih (n / 2) (by omega) h2
      omega
    · omega

theorem xor_div_two (x y : Nat) : (x ^^^ y) / 2 = (x / 2) ^^^ (y / 2) := by
  apply Nat.eq_of_testBit_eq
  intro i
  rw [← Nat.testBit_succ, Nat.testBit_xor, Nat.testBit_succ, Nat.testBit_succ]
  exact (Nat.testBit_xor _ _ _).symm

/-- Splitting an XOR at the lowest bit. -/
theorem xor_bits_split (p q u v : Nat) (hp : p < 2) (hq : q < 2) :
    (p + 2 * u) ^^^ (q + 2 * v) = (p ^^^ q) + 2 * (u ^^^ v) := by
  have hpq : p ^^^ q < 2 := by
    interval_cases p <;> interval_cases q <;> decide
  have h2 : (p ^^^ q) % 2 = (p + q) % 2 := Nat.xor_mod_two_eq
  have hmod : ((p + 2 * u) ^^^ (q + 2 * v)) % 2 = p ^^^ q := by
    rw [Nat.xor_mod_two_eq]
    omega
  have hdiv : ((p + 2 * u) ^^^ (q + 2 * v)) / 2 = u ^^^ v := by
    rw [xor_div_two]
    congr 1 <;> omega
  omega

/-- Splitting an XOR at bit `k`. -/
theorem xor_add_pow_split : ∀ (k a b c d : Nat), a < 2 ^ k → b < 2 ^ k →
    (a + 2 ^ k * c) ^^^ (b + 2 ^ k * d) = (a ^^^ b) + 2 ^ k * (c ^^^ d) := by
  intro k
  induction k with
  | zero =>
    intro a b c d ha hb
    interval_cases a
    interval_cases b
    simp
  | succ k ih =>
    intro a b c d ha hb
    rw [pow_succ] at ha hb ⊢
    have hc : 2 ^ k * 2 * c = 2 * (2 ^ k * c) := by ring
    have hd : 2 ^ k * 2 * d = 2 * (2 ^ k * d) := by ring
    have hcd : 2 ^ k * 2 * (c ^^^ d) = 2 * (2 ^ k * (c ^^^ d)) := by ring
    rw [hc, hd, hcd]
    have e1 : a + 2 * (2 ^ k * c) = a % 2 + 2 * (a / 2 + 2 ^ k * c) := by omega
    have e2 : b + 2 * (2 ^ k * d) = b % 2 + 2 * (b / 2 + 2 ^ k * d) := by omega
    rw [e1, e2, xor_bits_split _ _ _ _ (by omega) (by omega)]
    rw [ih (a / 2) (b / 2) c d (by omega) (by omega)]
    have hab : a ^^^ b = (a % 2 ^^^ b % 2) + 2 * (a / 2 ^^^ b / 2) := by
      conv_lhs => rw [show a = a % 2 + 2 * (a / 2) from by omega,
        show b = b % 2 + 2 * (b / 2) from by omega]
      exact xor_bits_split _ _ _ _ (by omega) (by omega)
    omega

/-- `popcount` is additive across a split at bit `k`. -/
theorem popcount_add_shift : ∀ (k x y : Nat), x < 2 ^ k →
    popcount (x + 2 ^ k * y) = popcount x + popcount y := by
  intro k
  induction k with
  | zero =>
    intro x y h
    interval_cases x
    simp [popcount, popcountAux_zero]
  | succ k ih =>
    intro x y h
    rw [pow_succ] at h ⊢
    have hy : 2 ^ k * 2 * y = 2 * (2 ^ k * y) := by ring
    rw [hy]
    by_cases h0 : x + 2 * (2 ^ k * y) = 0
    · have hx : x = 0 := by omega
      have hky : 2 ^ k * y = 0 := by omega
      have hy0 : y = 0 := by
        have := pow_pos (show (0:Nat) < 2 by omega) k
        rcases Nat.mul_eq_zero.mp hky with hk | hy
        · omega
        · exact hy
      subst hx; subst hy0
      simp [popcount, popcountAux_zero]
    · rw [popcount_rec (x + 2 * (2 ^ k * y))]
      have hmod : (x + 2 * (2 ^ k * y)) % 2 = x % 2 := Nat.add_mul_mod_self_left x 2 _
      have hdiv : (x + 2 * (2 ^ k * y)) / 2 = x / 2 + 2 ^ k * y :=
        Nat.add_mul_div_left x _ (by omega)
      rw [hmod, hdiv, ih (x / 2) y (by omega), popcount_rec x]
      omega

theorem rep4_eq (n : Nat) : rep4 n = n % 2 * 15 + 16 * rep4 (n / 2) := by
  cases n with
  | zero => simp [rep4]
  | succ m => rw [rep4]

theorem rep4_zero : rep4 0 = 0 := by
  have h := rep4_eq 0
  simp at h
  omega

theorem rep4_lt : ∀ (m n : Nat), n < 2 ^ m → rep4 n < 16 ^ m := by
  intro m
  induction m with
  | zero =>
    intro n h
    interval_cases n
    simp [rep4]
  | succ m ih =>
    intro n h
    rw [rep4_eq]
    have h1 : n / 2 < 2 ^ m := by rw [pow_succ] at h; omega
    have h2 := ih (n / 2) h1
    have hp : (16 : Nat) ^ (m + 1) = 16 * 16 ^ m := by rw [pow_succ]; ring
    rw [hp]
    omega

theorem popcount_mul15_xor (x y : Nat) :
    popcount (x % 2 * 15 ^^^ y % 2 * 15) = 4 * popcount (x % 2 ^^^ y % 2) := by
  rcases Nat.mod_two_eq_zero_or_one x with hx | hx <;>
    rcases Nat.mod_two_eq_zero_or_one y with hy | hy <;>
    rw [hx, hy] <;> decide

/-- `rep4` multiplies Hamming weight of a difference by four. -/
theorem popcount_rep4_xor : ∀ (N x y : Nat), x + y ≤ N →
    popcount (rep4 x ^^^ rep4 y) = 4 * popcount (x ^^^ y) := by
  intro N
  induction N with
  | zero =>
    intro x y h
    have hx : x = 0 := by omega
    have hy : y = 0 := by omega
    subst hx; subst hy
    rw [rep4_zero]
    decide
  | succ N ih =>
    intro x y h
    by_cases h0 : x = 0 ∧ y = 0
    · obtain ⟨hx, hy⟩ := h0; subst hx; subst hy; rw [rep4_zero]; decide
    · have hxlow : x % 2 * 15 < 2 ^ 4 := by omega
      have hylow : y % 2 * 15 < 2 ^ 4 := by omega
      have h16 : (16 : Nat) = 2 ^ 4 := by norm_num
      rw [rep4_eq x, rep4_eq y, h16,
        xor_add_pow_split 4 _ _ _ _ hxlow hylow,
        popcount_add_shift 4 _ _ (Nat.xor_lt_two_pow hxlow hylow),
        popcount_mul15_xor,
        ih (x / 2) (y / 2) (by omega),
        popcount_rec (x ^^^ y), xor_div_two]
      have hlow : popcount (x % 2 ^^^ y % 2) = (x ^^^ y) % 2 := by
        have hb2 : x % 2 ^^^ y % 2 < 2 := by
          have := Nat.xor_lt_two_pow (x := x % 2) (y := y % 2) (n := 1)
            (by omega) (by omega)
          simpa using this
        have hbm : (x % 2 ^^^ y % 2) % 2 = (x % 2 + y % 2) % 2 := Nat.xor_mod_two_eq
        have h1 : (x ^^^ y) % 2 = (x + y) % 2 := Nat.xor_mod_two_eq
        have hpc : popcount (x % 2 ^^^ y % 2) = x % 2 ^^^ y % 2 := by
          interval_cases hxy : (x % 2 ^^^ y % 2) <;> decide
        omega
      omega

end Crawler

namespace Crawler

theorem rep4_bound (n : Nat) (h : n < 4096) : rep4 n < 2 ^ 48 := by
  have h12 : (2 : Nat) ^ 12 = 4096 := by norm_num
  have h1 := rep4_lt 12 n (by rw [h12]; exact h)
  calc rep4 n < 16 ^ 12 := h1
    _ = 2 ^ 48 := by norm_num

theorem popcount_zero : popcount 0 = 0 := rfl

theorem pow48val : (2 : Nat) ^ 48 = 281474976710656 := by norm_num

/-- The synthetic simhashes are pairwise distinct. -/
theorem simStream_inj {a b : Nat} (h : simStream a = simStream b) : a = b := by
  unfold simStream at h
  have ha := rep4_bound (a % 4096) (by omega)
  have hb := rep4_bound (b % 4096) (by omega)
  rw [pow48val] at h ha hb
  have hsplit : a / 4096 = b / 4096 ∧ rep4 (a % 4096) = rep4 (b % 4096) := by
    constructor <;> omega
  have hmod : a % 4096 = b % 4096 := by
    by_contra hne
    have hx0 : rep4 (a % 4096) ^^^ rep4 (b % 4096) = 0 := Nat.xor_eq_zero.mpr hsplit.2
    have hp := popcount_rep4_xor (a % 4096 + b % 4096) (a % 4096) (b % 4096) (le_refl _)
    rw [hx0, popcount_zero] at hp
    have hne0 : a % 4096 ^^^ b % 4096 ≠ 0 := fun hc => hne (Nat.xor_eq_zero.mp hc)
    have hpos := popcount_pos _ hne0
    omega
  omega

/-- Synthetic simhashes at indices within 1000 of each other are at Hamming
distance greater than `SIMHASH_THRESHOLD`. -/
theorem simStream_window (a b : Nat) (hne : a ≠ b) (hd : a < b + 1001)
    (hd2 : b < a + 1001) :
    3 < hamming_distance (simStream a) (simStream b) := by
  unfold simStream hamming_distance
  have ha := rep4_bound (a % 4096) (by omega)
  have hb := rep4_bound (b % 4096) (by omega)
  rw [xor_add_pow_split 48 _ _ _ _ ha hb,
    popcount_add_shift 48 _ _ (Nat.xor_lt_two_pow ha hb)]
  have hmodne : a % 4096 ≠ b % 4096 := by omega
  have h4 := popcount_rep4_xor (a % 4096 + b % 4096) (a % 4096) (b % 4096) (le_refl _)
  have hne0 : a % 4096 ^^^ b % 4096 ≠ 0 := fun hc => hmodne (Nat.xor_eq_zero.mp hc)
  have hpos := popcount_pos _ hne0
  omega

theorem setAdd_of_not_mem [DecidableEq α] {s : List α} {x : α} (h : x ∉ s) :
    setAdd s x = s ++ [x] := by
  unfold setAdd
  rw [if_neg h]

/-- While both FIFOs have equal-size mirror sets, `_evict_if_needed` is the
identity (the 1.2-factor threshold is not reached). -/
theorem evict_c1State (m : Nat) : _evict_if_needed (c1State m) = c1State m := by
  have h1 : ¬(5 * (c1State m).seenSimhashSet.length
      > 6 * (c1State m).seenSimhashes.length) := by
    simp [c1State]
    omega
  have h2 : ¬(5 * (c1State m).seenChecksumSet.length
      > 6 * (c1State m).seenChecksums.length) := by
    simp [c1State]
    omega
  simp only [_evict_if_needed]
  rw [if_neg h1, if_neg h2]

/-- Processing the `m`-th synthetic page registers its fingerprints: all
dedup checks pass. -/
theorem c1_step (m : Nat) :
    dedupCheckAndRegister (c1State m) m (simStream m)
      = ({ seenSimhashes :=
             dequeAppend MAX_SIMHASH_CACHE ((List.range m).map simStream) (simStream m),
           seenSimhashSet := (List.range m).map simStream ++ [simStream m],
           seenChecksums := dequeAppend MAX_CHECKSUM_CACHE (List.range m) m,
           seenChecksumSet := List.range m ++ [m] }, true) := by
  have hnotc : m ∉ (c1State m).seenChecksumSet := by
    simp [c1State, List.mem_range]
  have hnots : simStream m ∉ (c1State m).seenSimhashSet := by
    simp only [c1State]
    intro hmem
    obtain ⟨j, hj, he⟩ := List.mem_map.mp hmem
    have := simStream_inj he
    rw [List.mem_range] at hj
    omega
  have hlen : (c1State m).seenSimhashes.length = m := by simp [c1State]
  have hany : ((List.range (min 1000 (c1State m).seenSimhashes.length)).any fun i =>
      decide (hamming_distance (simStream m)
        ((c1State m).seenSimhashes.getD ((c1State m).seenSimhashes.length - 1 - i) 0)
          ≤ SIMHASH_THRESHOLD)) = false := by
    apply List.any_eq_false.mpr
    intro i hi
    rw [List.mem_range, hlen] at hi
    simp only [decide_eq_true_eq]
    intro hle
    have hgetD : (c1State m).seenSimhashes.getD
        ((c1State m).seenSimhashes.length - 1 - i) 0 = simStream (m - 1 - i) := by
      have hlenm : (List.map simStream (List.range m)).length = m := by simp
      have hidx : m - 1 - i < (List.map simStream (List.range m)).length := by
        rw [hlenm]
        omega
      simp only [c1State]
      rw [hlenm, List.getD_eq_getElem _ _ hidx]
      simp
    rw [hgetD] at hle
    have hfar := simStream_window m (m - 1 - i) (by omega) (by omega) (by omega)
    unfold SIMHASH_THRESHOLD at hle
    omega
  simp only [dedupCheckAndRegister, evict_c1State]
  rw [if_neg hnotc, if_neg hnots]
  rw [hany]
  simp only [Bool.false_eq_true, if_false]
  rw [setAdd_of_not_mem hnotc, setAdd_of_not_mem hnots]
  simp only [c1State]

/-- The cache state after `m ≤ cap` synthetic pages is `c1State m`. -/
theorem c1Run_eq : ∀ m, m ≤ MAX_CHECKSUM_CACHE → c1Run m = c1State m := by
  intro m
  induction m with
  | zero => intro _; rfl
  | succ m ih =>
    intro h
    have hm : (List.range m).foldl
        (fun st k => (dedupCheckAndRegister st k (simStream k)).1) initDedupState
        = c1State m := ih (by omega)
    unfold c1Run
    rw [List.range_succ, List.foldl_append]
    simp only [List.foldl_cons, List.foldl_nil]
    rw [hm, c1_step]
    have hlt : m < MAX_CHECKSUM_CACHE := by omega
    have hlen1 : ((List.range m).map simStream).length ≠ MAX_SIMHASH_CACHE := by
      simp only [List.length_map, List.length_range]
      unfold MAX_SIMHASH_CACHE
      unfold MAX_CHECKSUM_CACHE at hlt
      omega
    have hlen2 : (List.range m).length ≠ MAX_CHECKSUM_CACHE := by
      simp only [List.length_range]
      omega
    simp only [dequeAppend, if_neg hlen1, if_neg hlen2]
    simp [c1State, List.range_succ]

end Crawler

namespace Crawler

/-- Claim C1, counterexample: after `scrape` registers 200001 pages with
pairwise-distinct checksums `0..200000` and simhashes `simStream k` (which
pass every dedup check), the insertion of page 200000 overflows the
checksum FIFO and evicts digest 0 — yet digest 0 is still in the checksum
set: the set does not contain exactly the FIFO contents, and the evicted
entry was not removed from it. -/
theorem C1_counterexample :
    0 ∈ (c1Run (MAX_CHECKSUM_CACHE + 1)).seenChecksumSet
      ∧ 0 ∉ (c1Run (MAX_CHECKSUM_CACHE + 1)).seenChecksums := by
  have hrun : c1Run (MAX_CHECKSUM_CACHE + 1)
      = { seenSimhashes := dequeAppend MAX_SIMHASH_CACHE
            ((List.range MAX_CHECKSUM_CACHE).map simStream)
            (simStream MAX_CHECKSUM_CACHE),
          seenSimhashSet := (List.range MAX_CHECKSUM_CACHE).map simStream
            ++ [simStream MAX_CHECKSUM_CACHE],
          seenChecksums := dequeAppend MAX_CHECKSUM_CACHE
            (List.range MAX_CHECKSUM_CACHE) MAX_CHECKSUM_CACHE,
          seenChecksumSet := List.range MAX_CHECKSUM_CACHE
            ++ [MAX_CHECKSUM_CACHE] } := by
    have hm : (List.range MAX_CHECKSUM_CACHE).foldl
        (fun st k => (dedupCheckAndRegister st k (simStream k)).1) initDedupState
        = c1State MAX_CHECKSUM_CACHE := c1Run_eq MAX_CHECKSUM_CACHE (le_refl _)
    unfold c1Run
    rw [List.range_succ, List.foldl_append, hm, List.foldl_cons, List.foldl_nil]
    show (dedupCheckAndRegister (c1State MAX_CHECKSUM_CACHE) MAX_CHECKSUM_CACHE
      (simStream MAX_CHECKSUM_CACHE)).1 = _
    rw [c1_step]
  rw [hrun]
  constructor
  · exact List.mem_append.mpr (Or.inl (List.mem_range.mpr
      (by unfold MAX_CHECKSUM_CACHE; omega)))
  · intro hmem
    dsimp only at hmem
    unfold dequeAppend at hmem
    rw [List.length_range, if_pos rfl] at hmem
    rcases List.mem_append.mp hmem with h | h
    · have hM : MAX_CHECKSUM_CACHE = 199999 + 1 := by unfold MAX_CHECKSUM_CACHE; omega
      rw [hM, List.range_succ_eq_map, List.tail_cons] at h
      obtain ⟨j, _, hj⟩ := List.mem_map.mp h
      exact Nat.succ_ne_zero j hj
    · have := List.mem_singleton.mp h
      unfold MAX_CHECKSUM_CACHE at this
      omega

/-- Helper: `_evict_if_needed` preserves the deques and the property that
each set contains its FIFO's elements (a rebuild re-establishes it). -/
theorem evict_superset [DecidableEq α] (st : DedupState α)
    (h1 : ∀ x ∈ st.seenChecksums, x ∈ st.seenChecksumSet)
    (h2 : ∀ x ∈ st.seenSimhashes, x ∈ st.seenSimhashSet) :
    (∀ x ∈ (_evict_if_needed st).seenChecksums,
        x ∈ (_evict_if_needed st).seenChecksumSet)
      ∧ (∀ x ∈ (_evict_if_needed st).seenSimhashes,
        x ∈ (_evict_if_needed st).seenSimhashSet) := by
  simp only [_evict_if_needed]
  split <;> split <;>
    refine ⟨?_, ?_⟩ <;> intro x hx <;>
    first
      | exact h1 x hx
      | exact h2 x hx
      | exact (mem_setOfList _ _).mpr hx

/-- Helper: one dedup operation preserves the FIFO-subset-of-set property. -/
theorem dedup_step_superset [DecidableEq α] (st : DedupState α) (c : α) (s : Nat)
    (h1 : ∀ x ∈ st.seenChecksums, x ∈ st.seenChecksumSet)
    (h2 : ∀ x ∈ st.seenSimhashes, x ∈ st.seenSimhashSet) :
    (∀ x ∈ (dedupCheckAndRegister st c s).1.seenChecksums,
        x ∈ (dedupCheckAndRegister st c s).1.seenChecksumSet)
      ∧ (∀ x ∈ (dedupCheckAndRegister st c s).1.seenSimhashes,
        x ∈ (dedupCheckAndRegister st c s).1.seenSimhashSet) := by
  obtain ⟨g1, g2⟩ := evict_superset st h1 h2
  simp only [dedupCheckAndRegister]
  split_ifs with k1 k2 k3
  · exact ⟨g1, g2⟩
  · exact ⟨g1, g2⟩
  · exact ⟨g1, g2⟩
  · constructor
    · intro x hx
      rcases mem_dequeAppend _ _ _ _ hx with h | h
      · exact (mem_setAdd_iff _ _ _).mpr (Or.inl (g1 x h))
      · exact (mem_setAdd_iff _ _ _).mpr (Or.inr h)
    · intro x hx
      rcases mem_dequeAppend _ _ _ _ hx with h | h
      · exact (mem_setAdd_iff _ _ _).mpr (Or.inl (g2 x h))
      · exact (mem_setAdd_iff _ _ _).mpr (Or.inr h)

/-- Helper: the FIFO-subset-of-set property is invariant along any run of
dedup operations. -/
theorem dedup_run_superset [DecidableEq α] :
    ∀ (pairs : List (α × Nat)) (st : DedupState α),
    (∀ x ∈ st.seenChecksums, x ∈ st.seenChecksumSet) →
    (∀ x ∈ st.seenSimhashes, x ∈ st.seenSimhashSet) →
    (∀ x ∈ (pairs.foldl (fun st p => (dedupCheckAndRegister st p.1 p.2).1)
        st).seenChecksums,
      x ∈ (pairs.foldl (fun st p => (dedupCheckAndRegister st p.1 p.2).1)
        st).seenChecksumSet)
    ∧ (∀ x ∈ (pairs.foldl (fun st p => (dedupCheckAndRegister st p.1 p.2).1)
        st).seenSimhashes,
      x ∈ (pairs.foldl (fun st p => (dedupCheckAndRegister st p.1 p.2).1)
        st).seenSimhashSet) := by
  intro pairs
  induction pairs with
  | nil => intro st h1 h2; exact ⟨h1, h2⟩
  | cons p rest ih =>
    intro st h1 h2
    have hstep := dedup_step_superset st p.1 p.2 h1 h2
    simp only [List.foldl_cons]
    exact ih _ hstep.1 hstep.2

/-- Claim C1, amended: at every point along any sequence of dedup-cache
operations performed by `scrape`, the checksum set contains AT LEAST the
digests currently in the bounded checksum FIFO, and the simhash set at
least the simhashes in the bounded simhash FIFO.  An insertion that
overflows a FIFO does NOT immediately remove the evicted entry from the
corresponding set: the set is resynchronized to exactly the FIFO contents
only when a later `_evict_if_needed` finds it more than 1.2 times larger
than the FIFO. -/
theorem C1_fifo_subset_of_set {α : Type} [DecidableEq α] (pairs : List (α × Nat)) :
    (∀ x ∈ (pairs.foldl (fun st p => (dedupCheckAndRegister st p.1 p.2).1)
        initDedupState).seenChecksums,
      x ∈ (pairs.foldl (fun st p => (dedupCheckAndRegister st p.1 p.2).1)
        initDedupState).seenChecksumSet)
    ∧ (∀ x ∈ (pairs.foldl (fun st p => (dedupCheckAndRegister st p.1 p.2).1)
        initDedupState).seenSimhashes,
      x ∈ (pairs.foldl (fun st p => (dedupCheckAndRegister st p.1 p.2).1)
        initDedupState).seenSimhashSet) :=
  dedup_run_superset pairs initDedupState
    (fun x hx => absurd hx (List.not_mem_nil x))
    (fun x hx => absurd hx (List.not_mem_nil x))

/-- Witness for C1 (amended): after one registration, the digest is in the
FIFO and the invariant places it in the set. -/
theorem C1_fifo_subset_of_set_witness :
    (3 : Nat) ∈ (([((3 : Nat), (5 : Nat))]).foldl
        (fun st p => (dedupCheckAndRegister st p.1 p.2).1)
        initDedupState).seenChecksumSet :=
  (C1_fifo_subset_of_set [((3 : Nat), (5 : Nat))]).1 3 (by decide)

end Crawler


namespace Crawler

/-! ## C5 infrastructure: character-level facts about `Char.toLower` -/

theorem toLower_upper_eq (c : Char) (h : c.toNat ≥ 65 ∧ c.toNat ≤ 90) :
    Char.toLower c = Char.ofNat (c.toNat + 32) := by
  simp only [Char.toLower]
  rw [if_pos h]

theorem toLower_other_eq (c : Char) (h : ¬(c.toNat ≥ 65 ∧ c.toNat ≤ 90)) :
    Char.toLower c = c := by
  simp only [Char.toLower]
  rw [if_neg h]

theorem toLower_eq_or (c : Char) :
    Char.toLower c = c ∨
      (97 ≤ (Char.toLower c).toNat ∧ (Char.toLower c).toNat ≤ 122) := by
  by_cases h : c.toNat ≥ 65 ∧ c.toNat ≤ 90
  · right
    rw [toLower_upper_eq c h]
    obtain ⟨h1, h2⟩ := h
    generalize c.toNat = n at h1 h2
    interval_cases n <;> decide
  · left; exact toLower_other_eq c h

theorem toLower_idem (c : Char) : (Char.toLower c).toLower = Char.toLower c := by
  by_cases h : c.toNat ≥ 65 ∧ c.toNat ≤ 90
  · rw [toLower_upper_eq c h]
    obtain ⟨h1, h2⟩ := h
    generalize c.toNat = n at h1 h2
    interval_cases n <;> decide
  · rw [toLower_other_eq c h, toLower_other_eq c h]

theorem isAlpha_toLower (c : Char) (h : c.isAlpha = true) :
    (Char.toLower c).isAlpha = true := by
  by_cases hu : c.toNat ≥ 65 ∧ c.toNat ≤ 90
  · rw [toLower_upper_eq c hu]
    obtain ⟨h1, h2⟩ := hu
    generalize c.toNat = n at h1 h2
    interval_cases n <;> decide
  · rw [toLower_other_eq c hu]; exact h

theorem schemeChar_toLower (c : Char) (h : schemeChar c = true) :
    schemeChar (Char.toLower c) = true := by
  by_cases hu : c.toNat ≥ 65 ∧ c.toNat ≤ 90
  · rw [toLower_upper_eq c hu]
    obtain ⟨h1, h2⟩ := hu
    generalize c.toNat = n at h1 h2
    interval_cases n <;> decide
  · rw [toLower_other_eq c hu]; exact h

theorem toLowerL_idem (s : Str) : toLowerL (toLowerL s) = toLowerL s := by
  simp only [toLowerL, List.map_map]
  exact List.map_congr_left fun c _ => toLower_idem c

theorem mem_toLowerL {d : Char} {s : Str} (h : d ∈ toLowerL s) :
    ∃ c ∈ s, Char.toLower c = d := by
  simp only [toLowerL, List.mem_map] at h
  exact h

/-- A character outside the lowercase-letter range that occurs in a lowered
string already occurred in the original. -/
theorem mem_of_mem_toLowerL_notLower {d : Char} {s : Str} (h : d ∈ toLowerL s)
    (hd : ¬(97 ≤ d.toNat ∧ d.toNat ≤ 122)) : d ∈ s := by
  obtain ⟨c, hc, he⟩ := mem_toLowerL h
  rcases toLower_eq_or c with h1 | h1
  · rw [he] at h1; rw [h1]; exact hc
  · rw [he] at h1; exact absurd h1 hd

theorem toLowerL_eq_nil_iff (s : Str) : toLowerL s = [] ↔ s = [] := by
  simp [toLowerL]

/-! ## C5 infrastructure: `splitFirst` -/

theorem splitFirst_eq_none_iff (sep : Char) (l : Str) :
    splitFirst sep l = none ↔ sep ∉ l := by
  induction l with
  | nil => simp [splitFirst]
  | cons c rest ih =>
    simp only [splitFirst]
    by_cases hc : c = sep
    · subst hc
      rw [if_pos (by simp)]
      simp
    · rw [if_neg (by simp [hc])]
      cases hs : splitFirst sep rest with
      | none =>
        have hrest : sep ∉ rest := ih.mp hs
        have hno : sep ∉ c :: rest := by
          simp only [List.mem_cons]
          rintro (he | hm)
          · exact hc he.symm
          · exact hrest hm
        simp [hno]
      | some p =>
        obtain ⟨a, b⟩ := p
        have hrest : sep ∈ rest := by
          by_contra hmem
          rw [ih.mpr hmem] at hs
          cases hs
        simp [hrest]

theorem splitFirst_append (sep : Char) (a b : Str) (h : sep ∉ a) :
    splitFirst sep (a ++ sep :: b) = some (a, b) := by
  induction a with
  | nil =>
    simp only [List.nil_append, splitFirst]
    rw [if_pos (by simp)]
  | cons c t ih =>
    have hc : c ≠ sep := fun he => h (he ▸ List.mem_cons_self c t)
    simp only [List.cons_append, splitFirst]
    rw [if_neg (by simp [hc])]
    simp only [List.append_eq]
    rw [ih (fun hm => h (List.mem_cons_of_mem _ hm))]

theorem splitFirst_eq_some (sep : Char) {l a b : Str}
    (h : splitFirst sep l = some (a, b)) : l = a ++ sep :: b ∧ sep ∉ a := by
  induction l generalizing a b with
  | nil => simp [splitFirst] at h
  | cons c t ih =>
    by_cases hc : c = sep
    · subst hc
      simp only [splitFirst] at h
      rw [if_pos (by simp)] at h
      simp only [Option.some.injEq, Prod.mk.injEq] at h
      obtain ⟨rfl, rfl⟩ := h
      exact ⟨rfl, by simp⟩
    · simp only [splitFirst] at h
      rw [if_neg (by simp [hc])] at h
      cases hs : splitFirst sep t with
      | none => rw [hs] at h; cases h
      | some p =>
        obtain ⟨a', b'⟩ := p
        rw [hs] at h
        simp only [Option.some.injEq, Prod.mk.injEq] at h
        obtain ⟨rfl, rfl⟩ := h
        obtain ⟨hdec, hmem⟩ := ih hs
        constructor
        · rw [hdec]; rfl
        · simp only [List.mem_cons]
          rintro (he | he)
          · exact hc he.symm
          · exact hmem he

end Crawler

namespace Crawler

/-! ## C5 infrastructure: `splitOnChar` and `lastSegF` -/

theorem splitOnChar_ne_nil (sep : Char) (l : Str) : splitOnChar sep l ≠ [] := by
  cases l with
  | nil => simp [splitOnChar]
  | cons c rest =>
    simp only [splitOnChar]
    by_cases h : (c == sep) = true
    · rw [if_pos h]; simp
    · rw [if_neg h]
      cases hr : splitOnChar sep rest <;> simp

theorem splitOnChar_of_not_mem (sep : Char) (l : Str) (h : sep ∉ l) :
    splitOnChar sep l = [l] := by
  induction l with
  | nil => rfl
  | cons c t ih =>
    have hc : c ≠ sep := fun he => h (he ▸ List.mem_cons_self c t)
    simp only [splitOnChar]
    rw [if_neg (by simp [hc]), ih (fun hm => h (List.mem_cons_of_mem _ hm))]

theorem splitOnChar_append (sep : Char) (a b : Str) (h : sep ∉ a) :
    splitOnChar sep (a ++ sep :: b) = a :: splitOnChar sep b := by
  induction a with
  | nil =>
    simp only [List.nil_append, splitOnChar]
    rw [if_pos (by simp)]
  | cons c t ih =>
    have hc : c ≠ sep := fun he => h (he ▸ List.mem_cons_self c t)
    simp only [List.cons_append, splitOnChar]
    rw [if_neg (by simp [hc])]
    simp only [List.append_eq]
    rw [ih (fun hm => h (List.mem_cons_of_mem _ hm))]

theorem two_le_length_splitOnChar (sep : Char) (l : Str) (h : sep ∈ l) :
    2 ≤ (splitOnChar sep l).length := by
  induction l with
  | nil => cases h
  | cons c t ih =>
    simp only [splitOnChar]
    by_cases hc : (c == sep) = true
    · rw [if_pos hc]
      have := splitOnChar_ne_nil sep t
      cases hr : splitOnChar sep t with
      | nil => exact absurd hr this
      | cons h0 t0 => simp
    · rw [if_neg hc]
      have hmem : sep ∈ t := by
        rcases List.mem_cons.mp h with he | hm
        · exact absurd (by simp [he]) hc
        · exact hm
      cases hr : splitOnChar sep t with
      | nil => exact absurd hr (splitOnChar_ne_nil sep t)
      | cons h0 t0 =>
        have := ih hmem
        rw [hr] at this
        simpa using this

theorem not_mem_of_mem_splitOnChar (sep : Char) (l : Str) :
    ∀ t ∈ splitOnChar sep l, sep ∉ t := by
  induction l with
  | nil =>
    intro t ht
    simp only [splitOnChar, List.mem_singleton] at ht
    subst ht; simp
  | cons c r ih =>
    intro t ht
    simp only [splitOnChar] at ht
    by_cases hc : (c == sep) = true
    · rw [if_pos hc] at ht
      rcases List.mem_cons.mp ht with he | hm
      · subst he; simp
      · exact ih t hm
    · rw [if_neg hc] at ht
      cases hr : splitOnChar sep r with
      | nil => exact absurd hr (splitOnChar_ne_nil sep r)
      | cons h0 t0 =>
        rw [hr] at ht
        rcases List.mem_cons.mp ht with he | hm
        · subst he
          have h0mem : sep ∉ h0 := ih h0 (hr ▸ List.mem_cons_self h0 t0)
          simp only [List.mem_cons]
          rintro (he2 | hm2)
          · exact absurd (by simp [he2]) hc
          · exact h0mem hm2
        · exact ih t (hr ▸ List.mem_cons_of_mem h0 hm)

theorem mem_of_mem_splitOnChar (sep : Char) (l : Str) :
    ∀ t ∈ splitOnChar sep l, ∀ x ∈ t, x ∈ l := by
  induction l with
  | nil =>
    intro t ht
    simp only [splitOnChar, List.mem_singleton] at ht
    subst ht; intro x hx; cases hx
  | cons c r ih =>
    intro t ht x hx
    simp only [splitOnChar] at ht
    by_cases hc : (c == sep) = true
    · rw [if_pos hc] at ht
      rcases List.mem_cons.mp ht with he | hm
      · subst he; cases hx
      · exact List.mem_cons_of_mem c (ih t hm x hx)
    · rw [if_neg hc] at ht
      cases hr : splitOnChar sep r with
      | nil => exact absurd hr (splitOnChar_ne_nil sep r)
      | cons h0 t0 =>
        rw [hr] at ht
        rcases List.mem_cons.mp ht with he | hm
        · subst he
          rcases List.mem_cons.mp hx with hxe | hxm
          · subst hxe; exact List.mem_cons_self x r
          · exact List.mem_cons_of_mem c
              (ih h0 (hr ▸ List.mem_cons_self h0 t0) x hxm)
        · exact List.mem_cons_of_mem c
            (ih t (hr ▸ List.mem_cons_of_mem h0 hm) x hx)

theorem contains_iff (l : Str) (c : Char) : l.contains c = true ↔ c ∈ l := by
  simp [List.contains]

theorem contains_eq_false_iff (l : Str) (c : Char) :
    l.contains c = false ↔ c ∉ l := by
  rw [← Bool.not_eq_true, not_iff_not]
  exact contains_iff l c

theorem lastSegF_of_not_mem (sep : Char) (l : Str) (h : sep ∉ l) :
    lastSegF sep l = l := by
  cases l with
  | nil => rfl
  | cons c t =>
    have hc : c ≠ sep := fun he => h (he ▸ List.mem_cons_self c t)
    have ht : sep ∉ t := fun hm => h (List.mem_cons_of_mem _ hm)
    simp only [lastSegF]
    rw [if_neg (by simpa using ht), if_neg (by simp [hc])]

theorem lastSegF_append (sep : Char) (w t : Str) (h : sep ∉ t) :
    lastSegF sep (w ++ sep :: t) = t := by
  induction w with
  | nil =>
    simp only [List.nil_append, lastSegF]
    rw [if_neg (by simpa using h), if_pos (by simp)]
  | cons c w' ih =>
    simp only [List.cons_append, lastSegF]
    have hmem : sep ∈ w' ++ sep :: t := List.mem_append_right w' (List.mem_cons_self sep t)
    rw [if_pos (by simp [hmem])]
    exact ih

theorem lastSegF_append_sep (sep : Char) (l : Str) :
    lastSegF sep (l ++ [sep]) = [] :=
  lastSegF_append sep l [] (by simp)

theorem exists_lastSegF_decomp (sep : Char) (l : Str) (h : sep ∈ l) :
    ∃ w, l = w ++ sep :: lastSegF sep l ∧ sep ∉ lastSegF sep l := by
  induction l with
  | nil => cases h
  | cons c t ih =>
    by_cases hmem : sep ∈ t
    · obtain ⟨w, hw, hns⟩ := ih hmem
      have : lastSegF sep (c :: t) = lastSegF sep t := by
        simp only [lastSegF]
        rw [if_pos (by simpa using hmem)]
      rw [this]
      exact ⟨c :: w, by rw [List.cons_append, ← hw], hns⟩
    · have hce : c = sep := by
        rcases List.mem_cons.mp h with he | hm
        · exact he.symm
        · exact absurd hm hmem
      subst hce
      have : lastSegF c (c :: t) = t := by
        simp only [lastSegF]
        rw [if_neg (by simpa using hmem), if_pos (by simp)]
      rw [this]
      exact ⟨[], rfl, hmem⟩

theorem getLastD_splitOnChar (sep : Char) (l : Str) :
    (splitOnChar sep l).getLastD [] = lastSegF sep l := by
  induction l with
  | nil => rfl
  | cons c t ih =>
    simp only [splitOnChar, lastSegF]
    by_cases hc : (c == sep) = true
    · rw [if_pos hc]
      by_cases hmem : sep ∈ t
      · rw [if_pos (by simpa using hmem)]
        rw [List.getLastD_cons]
        exact ih
      · rw [if_neg (by simpa using hmem)]
        rw [splitOnChar_of_not_mem sep t hmem, if_pos hc]
        rfl
    · rw [if_neg hc]
      cases hr : splitOnChar sep t with
      | nil => exact absurd hr (splitOnChar_ne_nil sep t)
      | cons h0 t0 =>
        by_cases hmem : sep ∈ t
        · have ht0 : t0 ≠ [] := by
            intro h0eq
            subst h0eq
            have := two_le_length_splitOnChar sep t hmem
            rw [hr] at this
            simp at this
          rw [if_pos (by simpa using hmem)]
          rw [hr] at ih
          rw [List.getLastD_cons, ← ih, List.getLastD_cons]
          obtain ⟨d, td, rfl⟩ := List.exists_cons_of_ne_nil ht0
          simp only [List.getLastD_eq_getLast?]
          cases hgl : (d :: td).getLast? with
          | none => simp at hgl
          | some x => rfl
        · rw [splitOnChar_of_not_mem sep t hmem] at hr
          simp only [List.cons.injEq] at hr
          obtain ⟨rfl, rfl⟩ := hr
          rw [if_neg (by simpa using hmem), if_neg hc]
          rfl

end Crawler

namespace Crawler

/-! ## C5 infrastructure: `collapseSlashes`, `hasDS`, `rstripSlashes` -/

theorem mem_collapseSlashes (l : Str) (x : Char) :
    x ∈ collapseSlashes l ↔ x ∈ l := by
  induction l with
  | nil => simp [collapseSlashes]
  | cons a t ih =>
    cases t with
    | nil => simp [collapseSlashes]
    | cons b r =>
      simp only [collapseSlashes]
      by_cases hab : (a == '/' && b == '/') = true
      · rw [if_pos hab]
        rw [ih]
        have ha : a = '/' := by simp at hab; exact hab.1
        have hb : b = '/' := by simp at hab; exact hab.2
        subst ha; subst hb
        simp [List.mem_cons]
      · rw [if_neg hab]
        simp only [List.mem_cons]
        rw [ih]
        simp [List.mem_cons]

theorem collapseSlashes_cons (l : Str) (a : Char) :
    ∃ t, collapseSlashes (a :: l) = a :: t := by
  induction l generalizing a with
  | nil => exact ⟨[], rfl⟩
  | cons b r ih =>
    simp only [collapseSlashes]
    by_cases hab : (a == '/' && b == '/') = true
    · rw [if_pos hab]
      obtain ⟨t, ht⟩ := ih b
      have hae : a = b := by
        simp at hab; rw [hab.1, hab.2]
      rw [ht, hae]
      exact ⟨t, rfl⟩
    · rw [if_neg hab]
      exact ⟨_, rfl⟩

theorem collapseSlashes_ne_nil (l : Str) (h : l ≠ []) :
    collapseSlashes l ≠ [] := by
  cases l with
  | nil => exact absurd rfl h
  | cons a t =>
    obtain ⟨t', ht'⟩ := collapseSlashes_cons t a
    rw [ht']
    simp

theorem hasDS_collapseSlashes (l : Str) : hasDS (collapseSlashes l) = false := by
  induction l with
  | nil => rfl
  | cons a t ih =>
    cases t with
    | nil => rfl
    | cons b r =>
      simp only [collapseSlashes]
      by_cases hab : (a == '/' && b == '/') = true
      · rw [if_pos hab]
        exact ih
      · rw [if_neg hab]
        obtain ⟨t', ht'⟩ := collapseSlashes_cons r b
        rw [ht']
        simp only [hasDS, Bool.or_eq_false_iff]
        constructor
        · exact (Bool.eq_false_iff).mpr (fun he => hab he)
        · rw [← ht']
          exact ih

theorem collapseSlashes_of_hasDS_false (l : Str) (h : hasDS l = false) :
    collapseSlashes l = l := by
  induction l with
  | nil => rfl
  | cons a t ih =>
    cases t with
    | nil => rfl
    | cons b r =>
      simp only [hasDS, Bool.or_eq_false_iff] at h
      simp only [collapseSlashes]
      rw [if_neg (by rw [h.1]; simp), ih h.2]

theorem collapseSlashes_idem (l : Str) :
    collapseSlashes (collapseSlashes l) = collapseSlashes l :=
  collapseSlashes_of_hasDS_false _ (hasDS_collapseSlashes l)

theorem hasDS_of_not_mem (l : Str) (h : '/' ∉ l) : hasDS l = false := by
  induction l with
  | nil => rfl
  | cons a t ih =>
    cases t with
    | nil => rfl
    | cons b r =>
      have ha : a ≠ '/' := fun he => h (he ▸ List.mem_cons_self a _)
      simp only [hasDS, Bool.or_eq_false_iff]
      constructor
      · simp [ha]
      · exact ih (fun hm => h (List.mem_cons_of_mem _ hm))

theorem hasDS_append_slash (l : Str) (h : hasDS l = false)
    (h2 : l.getLast? ≠ some '/') : hasDS (l ++ ['/']) = false := by
  induction l with
  | nil => rfl
  | cons a t ih =>
    cases t with
    | nil =>
      have ha : a ≠ '/' := by
        intro he
        exact h2 (by rw [he]; rfl)
      simp only [List.cons_append, List.nil_append, hasDS, Bool.or_eq_false_iff]
      exact ⟨by simp [ha], trivial⟩
    | cons b r =>
      simp only [hasDS, Bool.or_eq_false_iff] at h
      simp only [List.cons_append, hasDS, Bool.or_eq_false_iff]
      constructor
      · exact h.1
      · exact ih h.2 (by
          rw [List.getLast?_cons_cons] at h2
          exact h2)

theorem not_prefix_ds_of_hasDS_false (l : Str) (h : hasDS l = false) :
    ¬(∃ t, l = '/' :: '/' :: t) := by
  rintro ⟨t, rfl⟩
  simp [hasDS] at h

theorem rstripSlashes_of_getLast (l : Str) (h : l.getLast? ≠ some '/') :
    rstripSlashes l = l := by
  unfold rstripSlashes
  cases hl : l.reverse with
  | nil =>
    have : l = [] := by
      have := congrArg List.reverse hl
      simpa using this
    subst this
    rfl
  | cons c t =>
    have hc : c ≠ '/' := by
      intro he
      apply h
      rw [← List.head?_reverse, hl, he]
      rfl
    rw [List.dropWhile_cons_of_neg (by simp [hc]), ← hl, List.reverse_reverse]

theorem getLast?_append_slash (l : Str) : (l ++ ['/']).getLast? = some '/' := by
  simp

theorem endsSlash_iff (l : Str) :
    (['/'].isSuffixOf l) = true ↔ ∃ t, l = t ++ ['/'] := by
  rw [List.isSuffixOf_iff_suffix]
  constructor
  · rintro ⟨t, ht⟩
    exact ⟨t, ht.symm⟩
  · rintro ⟨t, rfl⟩
    exact List.suffix_append t ['/']

theorem getLast?_of_endsSlash (l : Str) (h : ∃ t, l = t ++ ['/']) :
    l.getLast? = some '/' := by
  obtain ⟨t, rfl⟩ := h
  simp

end Crawler

namespace Crawler

/-! ## C5 infrastructure: `lastSegF` through `collapseSlashes`; `normPath` -/

theorem lastSegF_collapseSlashes (p : Str) :
    lastSegF '/' (collapseSlashes p) = lastSegF '/' p := by
  induction p with
  | nil => rfl
  | cons a t ih =>
    cases t with
    | nil => rfl
    | cons b r =>
      simp only [collapseSlashes]
      by_cases hab : (a == '/' && b == '/') = true
      · rw [if_pos hab]
        rw [ih]
        have hb : b = '/' := by simp at hab; exact hab.2
        have hmem : '/' ∈ b :: r := hb ▸ List.mem_cons_self _ _
        conv_rhs => rw [lastSegF]
        rw [if_pos (by simp [hmem])]
      · rw [if_neg hab]
        by_cases hmem : '/' ∈ b :: r
        · obtain ⟨t', ht'⟩ := collapseSlashes_cons r b
          have hmem' : '/' ∈ collapseSlashes (b :: r) :=
            (mem_collapseSlashes _ _).mpr hmem
          conv_lhs => rw [lastSegF]
          conv_rhs => rw [lastSegF]
          rw [ht'] at hmem' ⊢
          rw [if_pos (by simp [hmem']), if_pos (by simp [hmem]), ← ht']
          exact ih
        · rw [collapseSlashes_of_hasDS_false (b :: r) (hasDS_of_not_mem _ hmem)]

theorem normPath_cases (p0 : Str) :
    normPath p0 = ['/'] ∨
    (p0 ≠ [] ∧ collapseSlashes p0 ≠ [] ∧ collapseSlashes p0 ≠ ['/'] ∧
      ((normPath p0 = collapseSlashes p0 ∧
          (collapseSlashes p0).getLast? ≠ some '/' ∧
          ((lastSegF '/' (collapseSlashes p0)).contains '.'
            && !(['.'].isPrefixOf (lastSegF '/' (collapseSlashes p0)))) = true) ∨
       (normPath p0 = collapseSlashes p0 ∧ ∃ t, collapseSlashes p0 = t ++ ['/']) ∨
       (normPath p0 = collapseSlashes p0 ++ ['/'] ∧
          (collapseSlashes p0).getLast? ≠ some '/'))) := by
  by_cases h0 : p0 = []
  · subst h0; left; rfl
  · have hq := collapseSlashes_ne_nil p0 h0
    have hne : (!p0.isEmpty) = true := by simp [h0]
    have hqe : (collapseSlashes p0).isEmpty = false := by
      simp [List.isEmpty_eq_true, hq]
    simp only [normPath]
    rw [hne, if_pos rfl, hqe, if_neg Bool.false_ne_true]
    by_cases hq1 : collapseSlashes p0 = ['/']
    · rw [if_pos hq1]
      left; exact hq1
    · rw [if_neg hq1]
      right
      refine ⟨h0, hq, hq1, ?_⟩
      rw [getLastD_splitOnChar]
      by_cases hExt : ((lastSegF '/' (collapseSlashes p0)).contains '.'
          && !(['.'].isPrefixOf (lastSegF '/' (collapseSlashes p0)))) = true
      · rw [if_pos hExt]
        left
        have hlast : (collapseSlashes p0).getLast? ≠ some '/' := by
          intro hl
          obtain ⟨t, ht⟩ := List.getLast?_eq_some_iff.mp hl
          have : lastSegF '/' (collapseSlashes p0) = [] := by
            rw [ht]; exact lastSegF_append_sep '/' t
          rw [this] at hExt
          simp at hExt
        exact ⟨rstripSlashes_of_getLast _ hlast, hlast, hExt⟩
      · rw [if_neg hExt]
        by_cases hsuf : (['/'].isSuffixOf (collapseSlashes p0)) = true
        · rw [if_pos hsuf]
          right; left
          exact ⟨rfl, (endsSlash_iff _).mp hsuf⟩
        · rw [if_neg hsuf]
          right; right
          refine ⟨rfl, ?_⟩
          intro hl
          obtain ⟨t, ht⟩ := List.getLast?_eq_some_iff.mp hl
          exact hsuf ((endsSlash_iff _).mpr ⟨t, ht⟩)

end Crawler

namespace Crawler

/-! ## C5 infrastructure: `normPath` facts -/

theorem lastSegF_slash_singleton : lastSegF '/' ['/'] = [] := rfl

theorem normPath_fix_generic (q : Str) (hne : q ≠ []) (hds : hasDS q = false) :
    normPath q =
      (if q = ['/'] then q
       else if ((lastSegF '/' q).contains '.'
           && !(['.'].isPrefixOf (lastSegF '/' q))) = true then rstripSlashes q
       else if (['/'].isSuffixOf q) = true then q
       else q ++ ['/']) := by
  have hne' : (!q.isEmpty) = true := by simp [hne]
  have hqe : q.isEmpty = false := by simp [List.isEmpty_eq_true, hne]
  simp only [normPath]
  rw [hne', if_pos rfl, collapseSlashes_of_hasDS_false q hds, hqe,
    if_neg Bool.false_ne_true, getLastD_splitOnChar]

theorem normPath_fix_file (q : Str) (hne : q ≠ []) (hds : hasDS q = false)
    (hlast : q.getLast? ≠ some '/')
    (hExt : ((lastSegF '/' q).contains '.'
        && !(['.'].isPrefixOf (lastSegF '/' q))) = true) :
    normPath q = q := by
  rw [normPath_fix_generic q hne hds]
  have hq1 : q ≠ ['/'] := by
    intro he
    rw [he] at hExt
    simp [lastSegF_slash_singleton] at hExt
  rw [if_neg hq1, if_pos hExt]
  exact rstripSlashes_of_getLast q hlast

theorem normPath_fix_dir (q : Str) (hne : q ≠ []) (hq1 : q ≠ ['/'])
    (hds : hasDS q = false) (hsuf : ∃ t, q = t ++ ['/']) :
    normPath q = q := by
  rw [normPath_fix_generic q hne hds]
  have hls : lastSegF '/' q = [] := by
    obtain ⟨t, rfl⟩ := hsuf
    exact lastSegF_append_sep '/' t
  rw [if_neg hq1, hls]
  rw [if_neg (by simp), if_pos ((endsSlash_iff q).mpr hsuf)]

theorem normPath_slash : normPath ['/'] = ['/'] := rfl

theorem normPath_idem (p0 : Str) : normPath (normPath p0) = normPath p0 := by
  rcases normPath_cases p0 with h | ⟨h0, hq, hq1, hcase⟩
  · rw [h]; exact normPath_slash
  · rcases hcase with ⟨heq, hlast, hExt⟩ | ⟨heq, hsuf⟩ | ⟨heq, hlast⟩
    · rw [heq]
      exact normPath_fix_file _ hq (hasDS_collapseSlashes p0) hlast hExt
    · rw [heq]
      exact normPath_fix_dir _ hq hq1 (hasDS_collapseSlashes p0) hsuf
    · rw [heq]
      have hds : hasDS (collapseSlashes p0 ++ ['/']) = false :=
        hasDS_append_slash _ (hasDS_collapseSlashes p0) hlast
      have hne : collapseSlashes p0 ++ ['/'] ≠ [] := by simp
      have hq1' : collapseSlashes p0 ++ ['/'] ≠ ['/'] := by
        intro he
        have : collapseSlashes p0 = [] := by
          have hl := congrArg List.length he
          simp at hl
          exact hl
        exact hq this
      exact normPath_fix_dir _ hne hq1' hds ⟨_, rfl⟩

theorem normPath_ne_nil (p0 : Str) : normPath p0 ≠ [] := by
  rcases normPath_cases p0 with h | ⟨h0, hq, hq1, hcase⟩
  · rw [h]; simp
  · rcases hcase with ⟨heq, _, _⟩ | ⟨heq, _⟩ | ⟨heq, _⟩
    · rw [heq]; exact hq
    · rw [heq]; exact hq
    · rw [heq]; simp

theorem hasDS_normPath (p0 : Str) : hasDS (normPath p0) = false := by
  rcases normPath_cases p0 with h | ⟨h0, hq, hq1, hcase⟩
  · rw [h]; rfl
  · rcases hcase with ⟨heq, _, _⟩ | ⟨heq, _⟩ | ⟨heq, hlast⟩
    · rw [heq]; exact hasDS_collapseSlashes p0
    · rw [heq]; exact hasDS_collapseSlashes p0
    · rw [heq]; exact hasDS_append_slash _ (hasDS_collapseSlashes p0) hlast

theorem mem_normPath (p0 : Str) (x : Char) (h : x ∈ normPath p0) :
    x ∈ p0 ∨ x = '/' := by
  rcases normPath_cases p0 with he | ⟨h0, hq, hq1, hcase⟩
  · rw [he] at h
    right
    simpa using h
  · rcases hcase with ⟨heq, _, _⟩ | ⟨heq, _⟩ | ⟨heq, _⟩
    · rw [heq] at h; left; exact (mem_collapseSlashes p0 x).mp h
    · rw [heq] at h; left; exact (mem_collapseSlashes p0 x).mp h
    · rw [heq] at h
      rcases List.mem_append.mp h with hm | hm
      · left; exact (mem_collapseSlashes p0 x).mp hm
      · right; simpa using hm

theorem slash_mem_normPath (p0 : Str) (h : '/' ∈ p0) : '/' ∈ normPath p0 := by
  rcases normPath_cases p0 with he | ⟨h0, hq, hq1, hcase⟩
  · rw [he]; simp
  · rcases hcase with ⟨heq, _, _⟩ | ⟨heq, _⟩ | ⟨heq, _⟩
    · rw [heq]; exact (mem_collapseSlashes p0 '/').mpr h
    · rw [heq]; exact (mem_collapseSlashes p0 '/').mpr h
    · rw [heq]
      exact List.mem_append_left _ ((mem_collapseSlashes p0 '/').mpr h)

theorem lastSegF_normPath (p0 : Str) :
    lastSegF '/' (normPath p0) = [] ∨
    lastSegF '/' (normPath p0) = lastSegF '/' p0 := by
  rcases normPath_cases p0 with he | ⟨h0, hq, hq1, hcase⟩
  · rw [he]; left; rfl
  · rcases hcase with ⟨heq, _, _⟩ | ⟨heq, hsuf⟩ | ⟨heq, _⟩
    · rw [heq]; right; exact lastSegF_collapseSlashes p0
    · rw [heq]; left
      obtain ⟨t, ht⟩ := hsuf
      rw [ht]; exact lastSegF_append_sep '/' t
    · rw [heq]; left; exact lastSegF_append_sep '/' _

theorem normPath_head (p0 : Str) (h : p0 = [] ∨ p0.head? = some '/') :
    (normPath p0).head? = some '/' := by
  rcases h with h | h
  · subst h; rfl
  · obtain ⟨t, rfl⟩ : ∃ t, p0 = '/' :: t := by
      cases p0 with
      | nil => cases h
      | cons c t =>
        have hc : c = '/' := by
          simp only [List.head?_cons, Option.some.injEq] at h
          exact h
        exact ⟨t, by rw [hc]⟩
    rcases normPath_cases ('/' :: t) with he | ⟨h0, hq, hq1, hcase⟩
    · rw [he]; rfl
    · obtain ⟨t', ht'⟩ := collapseSlashes_cons t '/'
      rcases hcase with ⟨heq, _, _⟩ | ⟨heq, _⟩ | ⟨heq, _⟩
      · rw [heq, ht']; rfl
      · rw [heq, ht']; rfl
      · rw [heq, ht']; rfl

end Crawler

namespace Crawler

/-! ## C5 infrastructure: stage lemmas for `urlsplitCore` -/

theorem urlsplitCore_eq (u : Str) :
    urlsplitCore u =
      ⟨(schemeSplit u).1, (netlocSplit (schemeSplit u).2).1,
        (querySplit (fragSplit (netlocSplit (schemeSplit u).2).2).1).1,
        (querySplit (fragSplit (netlocSplit (schemeSplit u).2).2).1).2,
        (fragSplit (netlocSplit (schemeSplit u).2).2).2⟩ := rfl

theorem schemeSplit_facts (u : Str) :
    (schemeSplit u).1 = [] ∨
    ((schemeSplit u).1 ≠ [] ∧
     toLowerL (schemeSplit u).1 = (schemeSplit u).1 ∧
     (∀ c ∈ (schemeSplit u).1, schemeChar c = true) ∧
     (∃ c t, (schemeSplit u).1 = c :: t ∧ c.isAlpha = true)) := by
  cases hsp : splitFirst ':' u with
  | none =>
    left
    simp only [schemeSplit, hsp]
  | some p =>
    obtain ⟨before, after⟩ := p
    obtain ⟨hdec, hnc⟩ := splitFirst_eq_some ':' hsp
    subst hdec
    cases before with
    | nil =>
      left
      simp only [schemeSplit]
      rw [hsp]
      dsimp only
      rw [if_neg (by simp)]
    | cons b0 bt =>
      simp only [schemeSplit]
      rw [hsp]
      dsimp only
      simp only [List.cons_append]
      split
      · next hcond =>
        right
        simp only [Bool.and_eq_true, decide_eq_true_eq, List.all_eq_true] at hcond
        obtain ⟨⟨hlen, hhead⟩, hall⟩ := hcond
        refine ⟨by simp [toLowerL], toLowerL_idem _, ?_, ?_⟩
        · intro c hc
          obtain ⟨c0, hc0, rfl⟩ := mem_toLowerL hc
          exact schemeChar_toLower c0 (hall c0 hc0)
        · exact ⟨Char.toLower b0, toLowerL bt, by simp [toLowerL], isAlpha_toLower b0 hhead⟩
      · next hcond =>
        left
        rfl

theorem dropWhile_head_false (p : Char → Bool) (l : Str) (c : Char) (t : Str)
    (h : l.dropWhile p = c :: t) : p c = false := by
  induction l with
  | nil => cases h
  | cons a l' ih =>
    by_cases hp : p a = true
    · rw [List.dropWhile_cons_of_pos hp] at h; exact ih h
    · rw [List.dropWhile_cons_of_neg hp] at h
      injection h with h1 h2
      subst h1
      exact Bool.eq_false_iff.mpr hp

theorem netlocSplit_chars (r : Str) :
    ∀ c ∈ (netlocSplit r).1, ¬(c = '/' ∨ c = '?' ∨ c = '#') := by
  intro c hc
  simp only [netlocSplit] at hc
  by_cases hp : (['/', '/'].isPrefixOf r) = true
  · rw [if_pos hp] at hc
    simp only at hc
    have := List.mem_takeWhile_imp hc
    simp only [Bool.not_eq_eq_eq_not, Bool.not_true, Bool.or_eq_false_iff,
      beq_eq_false_iff_ne, ne_eq] at this
    rintro (he | he | he)
    · exact this.1.1 he
    · exact this.1.2 he
    · exact this.2 he
  · rw [if_neg hp] at hc
    simp only at hc
    cases hc

theorem netlocSplit_rest (r : Str) (h : (netlocSplit r).1 ≠ []) :
    (netlocSplit r).2 = [] ∨
    ∃ c t, (netlocSplit r).2 = c :: t ∧ (c = '/' ∨ c = '?' ∨ c = '#') := by
  by_cases hp : (['/', '/'].isPrefixOf r) = true
  · have h2 : (netlocSplit r).2 =
        ((r.drop 2).dropWhile (fun c => !(c == '/' || c == '?' || c == '#'))) := by
      simp only [netlocSplit]
      rw [if_pos hp]
      simp only
      rw [← List.drop_drop]
      generalize r.drop 2 = L
      nth_rewrite 2 [← List.takeWhile_append_dropWhile
        (fun c => !(c == '/' || c == '?' || c == '#')) L]
      exact List.drop_left _ _
    rw [h2]
    cases hdrop : (r.drop 2).dropWhile (fun c => !(c == '/' || c == '?' || c == '#')) with
    | nil => left; rfl
    | cons c t =>
      right
      refine ⟨c, t, rfl, ?_⟩
      have := dropWhile_head_false _ _ _ _ hdrop
      simp only [Bool.not_eq_eq_eq_not, Bool.not_false, Bool.or_eq_true,
        beq_iff_eq] at this
      tauto
  · exfalso
    apply h
    simp only [netlocSplit]
    rw [if_neg hp]

theorem fragSplit_of_not_mem (r2 : Str) (h : '#' ∉ r2) : fragSplit r2 = (r2, []) := by
  simp only [fragSplit]
  rw [(splitFirst_eq_none_iff '#' r2).mpr h]

theorem querySplit_of_not_mem (r1 : Str) (h : '?' ∉ r1) : querySplit r1 = (r1, []) := by
  simp only [querySplit]
  rw [(splitFirst_eq_none_iff '?' r1).mpr h]

theorem querySplit_append (a b : Str) (h : '?' ∉ a) :
    querySplit (a ++ '?' :: b) = (a, b) := by
  simp only [querySplit]
  rw [splitFirst_append '?' a b h]

theorem fragSplit_decomp (r2 : Str) : ∃ s, r2 = (fragSplit r2).1 ++ s := by
  simp only [fragSplit]
  cases hf : splitFirst '#' r2 with
  | none => exact ⟨[], by simp⟩
  | some p =>
    obtain ⟨a, b⟩ := p
    obtain ⟨hdec, -⟩ := splitFirst_eq_some '#' hf
    exact ⟨'#' :: b, hdec⟩

theorem fragSplit_no_hash (r2 : Str) : '#' ∉ (fragSplit r2).1 := by
  simp only [fragSplit]
  cases hf : splitFirst '#' r2 with
  | none =>
    exact (splitFirst_eq_none_iff '#' r2).mp hf
  | some p =>
    obtain ⟨a, b⟩ := p
    exact (splitFirst_eq_some '#' hf).2

theorem querySplit_decomp (r1 : Str) : ∃ s, r1 = (querySplit r1).1 ++ s := by
  simp only [querySplit]
  cases hf : splitFirst '?' r1 with
  | none => exact ⟨[], by simp⟩
  | some p =>
    obtain ⟨a, b⟩ := p
    obtain ⟨hdec, -⟩ := splitFirst_eq_some '?' hf
    exact ⟨'?' :: b, hdec⟩

theorem querySplit_no_q (r1 : Str) : '?' ∉ (querySplit r1).1 := by
  simp only [querySplit]
  cases hf : splitFirst '?' r1 with
  | none => exact (splitFirst_eq_none_iff '?' r1).mp hf
  | some p =>
    obtain ⟨a, b⟩ := p
    exact (splitFirst_eq_some '?' hf).2

theorem querySplit_snd_sub (r1 : Str) : ∀ x ∈ (querySplit r1).2, x ∈ r1 := by
  intro x hx
  simp only [querySplit] at hx
  cases hf : splitFirst '?' r1 with
  | none => rw [hf] at hx; cases hx
  | some p =>
    obtain ⟨a, b⟩ := p
    rw [hf] at hx
    obtain ⟨hdec, -⟩ := splitFirst_eq_some '?' hf
    rw [hdec]
    exact List.mem_append_right a (List.mem_cons_of_mem _ hx)

end Crawler

namespace Crawler

/-! ## C5 infrastructure: `splitParamsCore` and `urlparseCore` -/

theorem take_length_sub (w ls : Str) (c : Char) :
    (w ++ c :: ls).take ((w ++ c :: ls).length - ls.length) = w ++ [c] := by
  have hlen : (w ++ c :: ls).length = w.length + 1 + ls.length := by
    simp [List.length_append]
    omega
  rw [hlen]
  have h2 : w.length + 1 + ls.length - ls.length = w.length + 1 := by omega
  rw [h2, List.take_append_eq_append_take, List.take_of_length_le (by omega)]
  have h3 : w.length + 1 - w.length = 1 := by omega
  rw [h3]
  rfl

theorem urlparseCore_scheme (u : Str) :
    (urlparseCore u).scheme = (urlsplitCore u).scheme := by
  simp only [urlparseCore]
  split <;> rfl

theorem urlparseCore_netloc (u : Str) :
    (urlparseCore u).netloc = (urlsplitCore u).netloc := by
  simp only [urlparseCore]
  split <;> rfl

theorem urlparseCore_query (u : Str) :
    (urlparseCore u).query = (urlsplitCore u).query := by
  simp only [urlparseCore]
  split <;> rfl

theorem urlparseCore_path_cases (u : Str) :
    ((urlparseCore u).path = (urlsplitCore u).path ∧ ';' ∉ (urlsplitCore u).path) ∨
    (';' ∈ (urlsplitCore u).path ∧
      (urlparseCore u).path = (splitParamsCore (urlsplitCore u).path).1) := by
  simp only [urlparseCore]
  by_cases hc : (urlsplitCore u).path.contains ';' = true
  · right
    rw [if_pos hc]
    exact ⟨(contains_iff _ _).mp hc, rfl⟩
  · left
    rw [if_neg hc]
    exact ⟨rfl, fun hm => hc ((contains_iff _ _).mpr hm)⟩

theorem splitParamsCore_semi (p : Str) :
    ';' ∉ (splitParamsCore p).1 ∨
    ('/' ∈ (splitParamsCore p).1 ∧ ';' ∉ lastSegF '/' (splitParamsCore p).1) := by
  simp only [splitParamsCore]
  by_cases hc : p.contains '/' = true
  · rw [if_pos hc, getLastD_splitOnChar]
    have hmem : '/' ∈ p := (contains_iff _ _).mp hc
    obtain ⟨w, hdecomp, hnos⟩ := exists_lastSegF_decomp '/' p hmem
    cases hf : splitFirst ';' (lastSegF '/' p) with
    | none =>
      dsimp only
      right
      exact ⟨hmem, (splitFirst_eq_none_iff ';' _).mp hf⟩
    | some q =>
      obtain ⟨a, b⟩ := q
      dsimp only
      obtain ⟨hls, hnosemi⟩ := splitFirst_eq_some ';' hf
      have hbefore : p.take (p.length - (lastSegF '/' p).length) = w ++ ['/'] := by
        set ls := lastSegF '/' p with hlsdef
        rw [hdecomp]
        exact take_length_sub w ls '/'
      rw [hbefore]
      have hres : (w ++ ['/']) ++ a = w ++ '/' :: a := by simp
      rw [hres]
      have hnsa : '/' ∉ a := by
        intro hx
        apply hnos
        rw [hls]
        exact List.mem_append_left _ hx
      right
      constructor
      · exact List.mem_append_right _ (List.mem_cons_self _ _)
      · rw [lastSegF_append '/' w a hnsa]
        exact hnosemi
  · rw [if_neg hc]
    left
    cases hf : splitFirst ';' p with
    | none =>
      dsimp only
      exact (splitFirst_eq_none_iff ';' p).mp hf
    | some q =>
      obtain ⟨a, b⟩ := q
      dsimp only
      exact (splitFirst_eq_some ';' hf).2

theorem splitParamsCore_subset (p : Str) : ∀ x ∈ (splitParamsCore p).1, x ∈ p := by
  intro x hx
  simp only [splitParamsCore] at hx
  by_cases hc : p.contains '/' = true
  · rw [if_pos hc, getLastD_splitOnChar] at hx
    cases hf : splitFirst ';' (lastSegF '/' p) with
    | none =>
      rw [hf] at hx
      exact hx
    | some q =>
      obtain ⟨a, b⟩ := q
      rw [hf] at hx
      dsimp only at hx
      rcases List.mem_append.mp hx with hm | hm
      · exact List.mem_of_mem_take hm
      · have hmem : '/' ∈ p := (contains_iff _ _).mp hc
        obtain ⟨w, hdecomp, -⟩ := exists_lastSegF_decomp '/' p hmem
        obtain ⟨hls, -⟩ := splitFirst_eq_some ';' hf
        rw [hdecomp]
        refine List.mem_append_right _ (List.mem_cons_of_mem _ ?_)
        rw [hls]
        exact List.mem_append_left _ hm
  · rw [if_neg hc] at hx
    cases hf : splitFirst ';' p with
    | none =>
      rw [hf] at hx
      exact hx
    | some q =>
      obtain ⟨a, b⟩ := q
      rw [hf] at hx
      dsimp only at hx
      obtain ⟨hls, -⟩ := splitFirst_eq_some ';' hf
      rw [hls]
      exact List.mem_append_left _ hx

theorem splitParamsCore_head (p : Str) :
    (splitParamsCore p).1 = [] ∨ (splitParamsCore p).1.head? = p.head? := by
  simp only [splitParamsCore]
  by_cases hc : p.contains '/' = true
  · rw [if_pos hc, getLastD_splitOnChar]
    have hmem : '/' ∈ p := (contains_iff _ _).mp hc
    obtain ⟨w, hdecomp, -⟩ := exists_lastSegF_decomp '/' p hmem
    cases hf : splitFirst ';' (lastSegF '/' p) with
    | none => right; rfl
    | some q =>
      obtain ⟨a, b⟩ := q
      dsimp only
      have hbefore : p.take (p.length - (lastSegF '/' p).length) = w ++ ['/'] := by
        set ls := lastSegF '/' p with hlsdef
        rw [hdecomp]
        exact take_length_sub w ls '/'
      rw [hbefore]
      right
      cases w with
      | nil =>
        rw [hdecomp]
        rfl
      | cons w0 wt =>
        rw [hdecomp]
        rfl
  · rw [if_neg hc]
    cases hf : splitFirst ';' p with
    | none => right; rfl
    | some q =>
      obtain ⟨a, b⟩ := q
      dsimp only
      obtain ⟨hls, -⟩ := splitFirst_eq_some ';' hf
      cases a with
      | nil => left; rfl
      | cons a0 arest =>
        right
        rw [hls]
        rfl

end Crawler

namespace Crawler

/-! ## C5 infrastructure: the query pipeline -/

theorem unquoteCore_cons_ne (c : Char) (rest : Str) (hc : c ≠ '%') :
    unquoteCore (c :: rest) = c :: unquoteCore rest := by
  cases rest with
  | nil => simp [unquoteCore, hc]
  | cons a rest2 =>
    cases rest2 with
    | nil => simp [unquoteCore, hc]
    | cons b rest3 => simp [unquoteCore, hc]

end Crawler

namespace Crawler

theorem unquoteCore_of_not_mem (s : Str) (h : '%' ∉ s) : unquoteCore s = s := by
  induction s with
  | nil => rfl
  | cons c rest ih =>
    have hc : c ≠ '%' := fun he => h (he ▸ List.mem_cons_self c rest)
    have hrest : '%' ∉ rest := fun hm => h (List.mem_cons_of_mem _ hm)
    rw [unquoteCore_cons_ne c rest hc, ih hrest]

theorem plusToSpace_of_not_mem (s : Str) (h : '+' ∉ s) : plusToSpace s = s := by
  simp only [plusToSpace]
  have hcong : ∀ c ∈ s, (if c == '+' then ' ' else c) = id c := by
    intro c hcm
    have : c ≠ '+' := fun he => h (he ▸ hcm)
    simp [this]
  rw [List.map_congr_left hcong, List.map_id]

theorem joinQuery_cons_cons (k v : Str) (p : Str × Str) (rest : List (Str × Str)) :
    joinQuery ((k, v) :: p :: rest) = k ++ '=' :: (v ++ '&' :: joinQuery (p :: rest)) := by
  simp [joinQuery]

theorem joinQuery_singleton (k v : Str) : joinQuery [(k, v)] = k ++ '=' :: v := rfl

theorem joinQuery_ne_nil (L : List (Str × Str)) (h : L ≠ []) : joinQuery L ≠ [] := by
  cases L with
  | nil => exact absurd rfl h
  | cons kv rest =>
    obtain ⟨k, v⟩ := kv
    cases rest with
    | nil => rw [joinQuery_singleton]; simp
    | cons p rest2 => rw [joinQuery_cons_cons]; simp

theorem mem_joinQuery (L : List (Str × Str)) (x : Char) (h : x ∈ joinQuery L) :
    x = '=' ∨ x = '&' ∨ ∃ kv ∈ L, x ∈ kv.1 ∨ x ∈ kv.2 := by
  induction L with
  | nil => cases h
  | cons kv rest ih =>
    obtain ⟨k, v⟩ := kv
    cases rest with
    | nil =>
      rw [joinQuery_singleton] at h
      rcases List.mem_append.mp h with hm | hm
      · exact Or.inr (Or.inr ⟨(k, v), List.mem_cons_self _ _, Or.inl hm⟩)
      · rcases List.mem_cons.mp hm with he | hm2
        · exact Or.inl he
        · exact Or.inr (Or.inr ⟨(k, v), List.mem_cons_self _ _, Or.inr hm2⟩)
    | cons p rest2 =>
      rw [joinQuery_cons_cons] at h
      rcases List.mem_append.mp h with hm | hm
      · exact Or.inr (Or.inr ⟨(k, v), List.mem_cons_self _ _, Or.inl hm⟩)
      · rcases List.mem_cons.mp hm with he | hm2
        · exact Or.inl he
        · rcases List.mem_append.mp hm2 with hm3 | hm3
          · exact Or.inr (Or.inr ⟨(k, v), List.mem_cons_self _ _, Or.inr hm3⟩)
          · rcases List.mem_cons.mp hm3 with he2 | hm4
            · exact Or.inr (Or.inl he2)
            · rcases ih hm4 with h5 | h5 | ⟨kv2, hkv2, h5⟩
              · exact Or.inl h5
              · exact Or.inr (Or.inl h5)
              · exact Or.inr (Or.inr ⟨kv2, List.mem_cons_of_mem _ hkv2, h5⟩)

theorem parseQsl_chunk (k v : Str) (hk2 : '=' ∉ k) (hkp : '%' ∉ k) (hvp : '%' ∉ v)
    (hkpl : '+' ∉ k) (hvpl : '+' ∉ v) (chunks : List Str) :
    (((k ++ '=' :: v) :: chunks).filterMap fun nv =>
      if nv.isEmpty then none
      else some (match splitFirst '=' nv with
        | none => (unquoteCore (plusToSpace nv), ([] : Str))
        | some (a, b) => (unquoteCore (plusToSpace a), unquoteCore (plusToSpace b)))) =
    (k, v) :: (chunks.filterMap fun nv =>
      if nv.isEmpty then none
      else some (match splitFirst '=' nv with
        | none => (unquoteCore (plusToSpace nv), ([] : Str))
        | some (a, b) => (unquoteCore (plusToSpace a), unquoteCore (plusToSpace b)))) := by
  rw [List.filterMap_cons]
  have hne : (k ++ '=' :: v).isEmpty = false := by
    cases k <;> simp
  rw [if_neg (by simp [hne]), splitFirst_append '=' k v hk2]
  dsimp only
  rw [plusToSpace_of_not_mem k hkpl, plusToSpace_of_not_mem v hvpl,
    unquoteCore_of_not_mem k hkp, unquoteCore_of_not_mem v hvp]

theorem parseQsl_joinQuery (L : List (Str × Str))
    (hfacts : ∀ kv ∈ L, '&' ∉ kv.1 ∧ '=' ∉ kv.1 ∧ '&' ∉ kv.2 ∧
        '%' ∉ kv.1 ∧ '%' ∉ kv.2 ∧ '+' ∉ kv.1 ∧ '+' ∉ kv.2) :
    parseQslCore (joinQuery L) = L := by
  induction L with
  | nil => rfl
  | cons kv rest ih =>
    obtain ⟨k, v⟩ := kv
    obtain ⟨hk1, hk2, hv1, hkp, hvp, hkpl, hvpl⟩ :=
      hfacts (k, v) (List.mem_cons_self _ _)
    have hamp : '&' ∉ k ++ '=' :: v := by
      intro hm
      rcases List.mem_append.mp hm with hm2 | hm2
      · exact hk1 hm2
      · rcases List.mem_cons.mp hm2 with he | hm3
        · cases he
        · exact hv1 hm3
    cases rest with
    | nil =>
      rw [joinQuery_singleton]
      simp only [parseQslCore]
      rw [splitOnChar_of_not_mem '&' _ hamp]
      exact parseQsl_chunk k v hk2 hkp hvp hkpl hvpl []
    | cons p rest2 =>
      rw [joinQuery_cons_cons]
      simp only [parseQslCore]
      have hshape : k ++ '=' :: (v ++ '&' :: joinQuery (p :: rest2)) =
          (k ++ '=' :: v) ++ '&' :: joinQuery (p :: rest2) := by
        simp
      rw [hshape, splitOnChar_append '&' _ _ hamp]
      rw [parseQsl_chunk k v hk2 hkp hvp hkpl hvpl _]
      have ihh := ih (fun kv2 hm => hfacts kv2 (List.mem_cons_of_mem _ hm))
      simp only [parseQslCore] at ihh
      rw [ihh]

end Crawler

namespace Crawler

theorem sortPairs_sorted (l : List (Str × Str)) :
    List.Sorted pairLe (sortPairs l) :=
  List.sorted_insertionSort pairLe l

theorem sortPairs_of_sorted {l : List (Str × Str)}
    (h : List.Sorted pairLe l) : sortPairs l = l :=
  List.Sorted.insertionSort_eq h

theorem mem_sortPairs (l : List (Str × Str)) (kv : Str × Str) :
    kv ∈ sortPairs l ↔ kv ∈ l :=
  List.mem_insertionSort pairLe

end Crawler

namespace Crawler

theorem parseQslCore_mem_facts (q : Str) (hp : '%' ∉ q) (hpl : '+' ∉ q) :
    ∀ kv ∈ parseQslCore q, '&' ∉ kv.1 ∧ '=' ∉ kv.1 ∧ '&' ∉ kv.2 ∧
      '%' ∉ kv.1 ∧ '%' ∉ kv.2 ∧ '+' ∉ kv.1 ∧ '+' ∉ kv.2 ∧
      (∀ x ∈ kv.1, x ∈ q) ∧ (∀ x ∈ kv.2, x ∈ q) := by
  intro kv hkv
  simp only [parseQslCore, List.mem_filterMap] at hkv
  obtain ⟨nv, hnv, hf⟩ := hkv
  have hampnv : '&' ∉ nv := not_mem_of_mem_splitOnChar '&' q nv hnv
  have hsubnv : ∀ x ∈ nv, x ∈ q := mem_of_mem_splitOnChar '&' q nv hnv
  have hpnv : '%' ∉ nv := fun hm => hp (hsubnv _ hm)
  have hplnv : '+' ∉ nv := fun hm => hpl (hsubnv _ hm)
  by_cases hemp : nv.isEmpty = true
  · rw [if_pos hemp] at hf; cases hf
  · rw [if_neg hemp] at hf
    cases hsp : splitFirst '=' nv with
    | none =>
      rw [hsp] at hf
      dsimp only at hf
      rw [plusToSpace_of_not_mem nv hplnv, unquoteCore_of_not_mem nv hpnv] at hf
      injection hf with hf2
      subst hf2
      exact ⟨hampnv, (splitFirst_eq_none_iff '=' nv).mp hsp, by simp, hpnv, by simp,
        hplnv, by simp, hsubnv, by simp⟩
    | some ab =>
      obtain ⟨a, b⟩ := ab
      rw [hsp] at hf
      dsimp only at hf
      obtain ⟨hdec, hnoeq⟩ := splitFirst_eq_some '=' hsp
      have hsub_a : ∀ x ∈ a, x ∈ nv := by
        intro x hx
        rw [hdec]
        exact List.mem_append_left _ hx
      have hsub_b : ∀ x ∈ b, x ∈ nv := by
        intro x hx
        rw [hdec]
        exact List.mem_append_right _ (List.mem_cons_of_mem _ hx)
      rw [plusToSpace_of_not_mem a (fun hm => hplnv (hsub_a _ hm)),
          plusToSpace_of_not_mem b (fun hm => hplnv (hsub_b _ hm)),
          unquoteCore_of_not_mem a (fun hm => hpnv (hsub_a _ hm)),
          unquoteCore_of_not_mem b (fun hm => hpnv (hsub_b _ hm))] at hf
      injection hf with hf2
      subst hf2
      exact ⟨fun hm => hampnv (hsub_a _ hm), hnoeq, fun hm => hampnv (hsub_b _ hm),
        fun hm => hpnv (hsub_a _ hm), fun hm => hpnv (hsub_b _ hm),
        fun hm => hplnv (hsub_a _ hm), fun hm => hplnv (hsub_b _ hm),
        fun x hm => hsubnv x (hsub_a _ hm), fun x hm => hsubnv x (hsub_b _ hm)⟩

/-- The normalized query re-parses to exactly its (sorted) pair list, so a
second normalization pass leaves it unchanged. -/
theorem normQuery_idem (q : Str) (hp : '%' ∉ q) (hpl : '+' ∉ q) :
    joinQuery (sortPairs (parseQslCore (joinQuery (sortPairs (parseQslCore q))))) =
      joinQuery (sortPairs (parseQslCore q)) := by
  have hfacts : ∀ kv ∈ sortPairs (parseQslCore q), '&' ∉ kv.1 ∧ '=' ∉ kv.1 ∧
      '&' ∉ kv.2 ∧ '%' ∉ kv.1 ∧ '%' ∉ kv.2 ∧ '+' ∉ kv.1 ∧ '+' ∉ kv.2 := by
    intro kv hm
    obtain ⟨h1, h2, h3, h4, h5, h6, h7, -, -⟩ :=
      parseQslCore_mem_facts q hp hpl kv ((mem_sortPairs _ kv).mp hm)
    exact ⟨h1, h2, h3, h4, h5, h6, h7⟩
  rw [parseQsl_joinQuery _ hfacts, sortPairs_of_sorted (sortPairs_sorted _)]

/-- Characters of the normalized query: `=`, `&`, or characters of the
original query string. -/
theorem mem_normQuery (q : Str) (hp : '%' ∉ q) (hpl : '+' ∉ q) (x : Char)
    (hx : x ∈ joinQuery (sortPairs (parseQslCore q))) :
    x = '=' ∨ x = '&' ∨ x ∈ q := by
  rcases mem_joinQuery _ x hx with h | h | ⟨kv, hkv, hm⟩
  · exact Or.inl h
  · exact Or.inr (Or.inl h)
  · obtain ⟨-, -, -, -, -, -, -, hs1, hs2⟩ :=
      parseQslCore_mem_facts q hp hpl kv ((mem_sortPairs _ kv).mp hkv)
    rcases hm with hm | hm
    · exact Or.inr (Or.inr (hs1 x hm))
    · exact Or.inr (Or.inr (hs2 x hm))

end Crawler

namespace Crawler

/-! ## C5 infrastructure: `urlunsplitCore` shape and the split/unsplit roundtrip -/

theorem ds_isPrefixOf_iff (l : Str) :
    (['/', '/'].isPrefixOf l) = true ↔ ∃ t, l = '/' :: '/' :: t := by
  rw [ List.isPrefixOf_iff_prefix]
  constructor
  · rintro ⟨t, ht⟩
    exact ⟨t, ht.symm⟩
  · rintro ⟨t, rfl⟩
    exact ⟨t, rfl⟩

theorem slash_isPrefixOf_iff (l : Str) :
    (['/'].isPrefixOf l) = true ↔ ∃ t, l = '/' :: t := by
  rw [ List.isPrefixOf_iff_prefix]
  constructor
  · rintro ⟨t, ht⟩
    exact ⟨t, ht.symm⟩
  · rintro ⟨t, rfl⟩
    exact ⟨t, rfl⟩

theorem not_ds_prefix_append (PA q' : Str) (hne : PA ≠ []) (hnds : hasDS PA = false)
    (hq : q' = [] ∨ ∃ t2, q' = '?' :: t2) :
    (['/', '/'].isPrefixOf (PA ++ q')) = false := by
  rw [Bool.eq_false_iff]
  intro hpre
  obtain ⟨t, ht⟩ := (ds_isPrefixOf_iff _).mp hpre
  cases PA with
  | nil => exact hne rfl
  | cons a pt =>
    cases pt with
    | nil =>
      rcases hq with rfl | ⟨t2, rfl⟩
      · simp at ht
      · simp only [List.cons_append, List.nil_append, List.cons.injEq] at ht
        exact absurd ht.2.1.symm (by decide)
    | cons b pt2 =>
      simp only [List.cons_append, List.cons.injEq] at ht
      obtain ⟨rfl, rfl, -⟩ := ht
      simp [hasDS] at hnds

theorem takeWhile_append_of_neg (p : Char → Bool) (a : Str) (c : Char) (b : Str)
    (ha : ∀ x ∈ a, p x = true) (hc : p c = false) :
    (a ++ c :: b).takeWhile p = a := by
  induction a with
  | nil =>
    rw [List.nil_append, List.takeWhile_cons_of_neg (by simp [hc])]
  | cons x a' ih =>
    rw [List.cons_append, List.takeWhile_cons_of_pos (ha x (List.mem_cons_self _ _)),
      ih (fun y hy => ha y (List.mem_cons_of_mem _ hy))]

theorem netlocSplit_nopfx (r : Str) (hpre : (['/', '/'].isPrefixOf r) = false) :
    netlocSplit r = ([], r) := by
  simp only [netlocSplit]
  rw [hpre, if_neg Bool.false_ne_true]

theorem netlocSplit_exact (N rest' : Str)
    (hN : ∀ c ∈ N, ¬(c = '/' ∨ c = '?' ∨ c = '#'))
    (hr : rest'.head? = some '/') :
    netlocSplit ('/' :: '/' :: (N ++ rest')) = (N, rest') := by
  obtain ⟨t, rfl⟩ : ∃ t, rest' = '/' :: t := by
    cases rest' with
    | nil => cases hr
    | cons x t =>
      simp only [List.head?_cons, Option.some.injEq] at hr
      exact ⟨t, by rw [hr]⟩
  simp only [netlocSplit]
  rw [if_pos ((ds_isPrefixOf_iff _).mpr ⟨N ++ '/' :: t, rfl⟩)]
  have htw : (('/' :: '/' :: (N ++ '/' :: t)).drop 2).takeWhile
      (fun c => !(c == '/' || c == '?' || c == '#')) = N := by
    rw [show ('/' :: '/' :: (N ++ '/' :: t)).drop 2 = N ++ '/' :: t from rfl]
    refine takeWhile_append_of_neg _ N '/' t ?_ (by decide)
    intro x hx
    have := hN x hx
    simp only [Bool.not_eq_eq_eq_not, Bool.not_true, Bool.or_eq_false_iff,
      beq_eq_false_iff_ne, ne_eq]
    push_neg at this
    exact ⟨⟨this.1, this.2.1⟩, this.2.2⟩
  rw [htw]
  have hdrop : ('/' :: '/' :: (N ++ '/' :: t)).drop (2 + N.length) = '/' :: t := by
    rw [← List.drop_drop,
      show ('/' :: '/' :: (N ++ '/' :: t)).drop 2 = N ++ '/' :: t from rfl,
      List.drop_left]
  rw [hdrop]

theorem urlunsplitCore_shape (S N PA Q : Str) (hS : S ≠ []) (hPA : PA ≠ [])
    (hnds : hasDS PA = false) (hslash : N ≠ [] → PA.head? = some '/') :
    urlunsplitCore S N PA Q [] =
      S ++ ':' :: ((if N.isEmpty then PA
          else '/' :: '/' :: (N ++ PA)) ++
        (if Q.isEmpty then [] else '?' :: Q)) := by
  by_cases hN : N = []
  · subst hN
    have hpre : (['/', '/'].isPrefixOf PA) = false := by
      have h := not_ds_prefix_append PA [] hPA hnds (Or.inl rfl)
      rwa [List.append_nil] at h
    by_cases hQ : Q = []
    · subst hQ
      simp [urlunsplitCore, hpre, hS]
    · simp [urlunsplitCore, hpre, hS, hQ]
  · have hPAhead := hslash hN
    obtain ⟨t, rfl⟩ : ∃ t, PA = '/' :: t := by
      cases PA with
      | nil => cases hPAhead
      | cons a t =>
        simp only [List.head?_cons, Option.some.injEq] at hPAhead
        exact ⟨t, by rw [hPAhead]⟩
    have hpref : (['/'].isPrefixOf ('/' :: t)) = true :=
      (slash_isPrefixOf_iff _).mpr ⟨t, rfl⟩
    by_cases hQ : Q = []
    · subst hQ
      simp [urlunsplitCore, hS, hN, hpref]
    · simp [urlunsplitCore, hS, hN, hQ, hpref]

end Crawler

namespace Crawler

theorem head?_some_decomp (l : Str) (c : Char) (h : l.head? = some c) :
    ∃ t, l = c :: t := by
  cases l with
  | nil => cases h
  | cons a t =>
    simp only [List.head?_cons, Option.some.injEq] at h
    exact ⟨t, by rw [h]⟩

/-- Splitting the re-assembled URL recovers its components (the scheme comes
back lowercased). -/
theorem urlsplit_roundtrip (S N PA Q : Str)
    (hS_ne : S ≠ [])
    (hS_head : ∃ c t, S = c :: t ∧ c.isAlpha = true)
    (hS_chars : ∀ c ∈ S, schemeChar c = true)
    (hN : ∀ c ∈ N, ¬(c = '/' ∨ c = '?' ∨ c = '#'))
    (hPA_ne : PA ≠ [])
    (hPA_noq : '?' ∉ PA)
    (hPA_nof : '#' ∉ PA)
    (hPA_nds : hasDS PA = false)
    (hPA_slash : N ≠ [] → PA.head? = some '/')
    (hQ_nof : '#' ∉ Q) :
    urlsplitCore (urlunsplitCore S N PA Q []) = ⟨toLowerL S, N, PA, Q, []⟩ := by
  have hcolon : ':' ∉ S := by
    intro hm
    exact absurd (hS_chars ':' hm) (by decide)
  rw [urlunsplitCore_shape S N PA Q hS_ne hPA_ne hPA_nds hPA_slash]
  set T := (if N.isEmpty then PA else '/' :: '/' :: (N ++ PA)) ++
      (if Q.isEmpty then [] else '?' :: Q) with hT
  have hsp : splitFirst ':' (S ++ ':' :: T) = some (S, T) :=
    splitFirst_append ':' S T hcolon
  have hscheme : schemeSplit (S ++ ':' :: T) = (toLowerL S, T) := by
    obtain ⟨c, t, hS_eq, halpha⟩ := hS_head
    simp only [schemeSplit]
    rw [hsp]
    dsimp only
    rw [hS_eq]
    simp only [List.cons_append]
    rw [if_pos (by
      simp only [Bool.and_eq_true, decide_eq_true_eq, List.all_eq_true]
      exact ⟨⟨by simp, halpha⟩, fun x hx => hS_chars x (hS_eq ▸ hx)⟩)]
  have hqcases : (if Q.isEmpty then ([] : Str) else '?' :: Q) = [] ∨
      ∃ t2, (if Q.isEmpty then ([] : Str) else '?' :: Q) = '?' :: t2 := by
    by_cases hQ : Q.isEmpty = true
    · left; rw [if_pos hQ]
    · right; exact ⟨Q, by rw [if_neg hQ]⟩
  have hnetloc : netlocSplit T = (N, PA ++ (if Q.isEmpty then [] else '?' :: Q)) := by
    by_cases hNe : N = []
    · subst hNe
      rw [hT, show (List.isEmpty ([] : Str)) = true from rfl, if_pos rfl]
      exact netlocSplit_nopfx _ (not_ds_prefix_append PA _ hPA_ne hPA_nds hqcases)
    · rw [hT, if_neg (by simp [hNe])]
      have hassoc : ('/' :: '/' :: (N ++ PA)) ++ (if Q.isEmpty then [] else '?' :: Q) =
          '/' :: '/' :: (N ++ (PA ++ (if Q.isEmpty then [] else '?' :: Q))) := by
        simp
      rw [hassoc]
      refine netlocSplit_exact N _ hN ?_
      obtain ⟨t, rfl⟩ := head?_some_decomp PA '/' (hPA_slash hNe)
      rfl
  have hnof : '#' ∉ PA ++ (if Q.isEmpty then [] else '?' :: Q) := by
    intro hm
    rcases List.mem_append.mp hm with hm | hm
    · exact hPA_nof hm
    · by_cases hQ : Q.isEmpty = true
      · rw [if_pos hQ] at hm; cases hm
      · rw [if_neg hQ] at hm
        rcases List.mem_cons.mp hm with h2 | h2
        · cases h2
        · exact hQ_nof h2
  have hfrag : fragSplit (PA ++ (if Q.isEmpty then [] else '?' :: Q)) =
      (PA ++ (if Q.isEmpty then [] else '?' :: Q), []) := fragSplit_of_not_mem _ hnof
  have hquery : querySplit (PA ++ (if Q.isEmpty then [] else '?' :: Q)) = (PA, Q) := by
    by_cases hQ : Q.isEmpty = true
    · rw [if_pos hQ, List.append_nil, querySplit_of_not_mem PA hPA_noq,
        List.isEmpty_eq_true.mp hQ]
    · rw [if_neg hQ]
      exact querySplit_append PA Q hPA_noq
  rw [urlsplitCore_eq, hscheme]
  dsimp only
  rw [hnetloc]
  dsimp only
  rw [hfrag]
  dsimp only
  rw [hquery]

end Crawler

namespace Crawler

theorem urldefragCore_of_not_mem (v : Str) (h : '#' ∉ v) : urldefragCore v = (v, []) := by
  simp only [urldefragCore]
  rw [(contains_eq_false_iff v '#').mpr h, if_neg Bool.false_ne_true]

theorem splitParamsCore_clean (p : Str) (hslash : '/' ∈ p)
    (hns : ';' ∉ lastSegF '/' p) : splitParamsCore p = (p, []) := by
  simp only [splitParamsCore]
  rw [if_pos ((contains_iff _ _).mpr hslash), getLastD_splitOnChar,
    (splitFirst_eq_none_iff ';' _).mpr hns]

theorem normalize_url_eq (v : Str) :
    normalize_url v =
      urlunsplitCore
        (if (toLowerL (urlparseCore (urldefragCore v).1).scheme).isEmpty
          then ("http").data
          else toLowerL (urlparseCore (urldefragCore v).1).scheme)
        (toLowerL (urlparseCore (urldefragCore v).1).netloc)
        (normPath (urlparseCore (urldefragCore v).1).path)
        (if !(urlparseCore (urldefragCore v).1).query.isEmpty
          then joinQuery (sortPairs (parseQslCore (urlparseCore (urldefragCore v).1).query))
          else (urlparseCore (urldefragCore v).1).query)
        [] := rfl

end Crawler

namespace Crawler

set_option maxHeartbeats 1000000 in
/-- C5: amended claim.  `normalize_url` is idempotent on every URL whose
parsed query component contains no percent sign and no plus sign (in
particular on every URL without a query): the `unquote`/plus-decoding steps
of `parse_qsl` are the only sources of non-idempotence, and all other steps
(scheme default and lowercasing, netloc lowercasing, path normalization,
query sorting and re-serialization) are fixpoints on their own output. -/
theorem C5_normalize_idempotent (url : Str)
    (hq : '%' ∉ (urlparseCore (urldefragCore url).1).query ∧
          '+' ∉ (urlparseCore (urldefragCore url).1).query) :
    normalize_url (normalize_url url) = normalize_url url := by
  set u := (urldefragCore url).1 with hu
  set q1 := (urlparseCore u).query with hq1def
  set S := (if (toLowerL (urlparseCore u).scheme).isEmpty then ("http").data
    else toLowerL (urlparseCore u).scheme) with hSdef
  set N := toLowerL (urlparseCore u).netloc with hNdef
  set PA := normPath (urlparseCore u).path with hPAdef
  set Q := (if !q1.isEmpty then joinQuery (sortPairs (parseQslCore q1)) else q1)
    with hQdef
  have hR : normalize_url url = urlunsplitCore S N PA Q [] := rfl
  -- ===== scheme facts =====
  have hsplit_scheme : (urlparseCore u).scheme = (schemeSplit u).1 :=
    urlparseCore_scheme u
  have hS_facts : S ≠ [] ∧ (∃ c t, S = c :: t ∧ c.isAlpha = true) ∧
      (∀ c ∈ S, schemeChar c = true) ∧ toLowerL S = S := by
    rcases schemeSplit_facts u with hsc | ⟨hne, hfix, hchars, hhead⟩
    · have hSh : S = ("http").data := by
        rw [hSdef, hsplit_scheme, hsc]
        rfl
      rw [hSh]
      exact ⟨by decide, ⟨'h', ("ttp").data, by decide, by decide⟩, by decide, by decide⟩
    · have hSval : S = (schemeSplit u).1 := by
        rw [hSdef, hsplit_scheme, hfix,
          if_neg (by simp [List.isEmpty_eq_true, hne])]
      rw [hSval]
      exact ⟨hne, hhead, hchars, hfix⟩
  obtain ⟨hS_ne, hS_head, hS_chars, hS_fix⟩ := hS_facts
  -- ===== netloc facts =====
  have hsplit_netloc : (urlparseCore u).netloc = (netlocSplit (schemeSplit u).2).1 :=
    urlparseCore_netloc u
  have hN_chars : ∀ c ∈ N, ¬(c = '/' ∨ c = '?' ∨ c = '#') := by
    intro c hc hbad
    have hcne : ¬(97 ≤ c.toNat ∧ c.toNat ≤ 122) := by
      rcases hbad with rfl | rfl | rfl <;> decide
    have hcm : c ∈ (urlparseCore u).netloc :=
      mem_of_mem_toLowerL_notLower (hNdef ▸ hc) hcne
    rw [hsplit_netloc] at hcm
    exact netlocSplit_chars _ c hcm hbad
  have hN_fix : toLowerL N = N := by
    rw [hNdef]
    exact toLowerL_idem _
  -- ===== path facts =====
  have hsplit_path_sub : ∀ x ∈ (urlparseCore u).path, x ∈ (urlsplitCore u).path := by
    rcases urlparseCore_path_cases u with ⟨heq, -⟩ | ⟨-, heq⟩
    · rw [heq]; exact fun x hx => hx
    · rw [heq]; exact splitParamsCore_subset _
  have hpath_noq : '?' ∉ (urlsplitCore u).path :=
    querySplit_no_q (fragSplit (netlocSplit (schemeSplit u).2).2).1
  have hpath_nof : '#' ∉ (urlsplitCore u).path := by
    intro hm
    obtain ⟨s, hs⟩ := querySplit_decomp (fragSplit (netlocSplit (schemeSplit u).2).2).1
    exact fragSplit_no_hash (netlocSplit (schemeSplit u).2).2
      (by rw [hs]; exact List.mem_append_left _ hm)
  have hPA_ne : PA ≠ [] := by rw [hPAdef]; exact normPath_ne_nil _
  have hPA_nds : hasDS PA = false := by rw [hPAdef]; exact hasDS_normPath _
  have hPA_noq : '?' ∉ PA := by
    intro hm
    rcases mem_normPath _ '?' (hPAdef ▸ hm) with hm2 | he
    · exact hpath_noq (hsplit_path_sub '?' hm2)
    · exact absurd he (by decide)
  have hPA_nof : '#' ∉ PA := by
    intro hm
    rcases mem_normPath _ '#' (hPAdef ▸ hm) with hm2 | he
    · exact hpath_nof (hsplit_path_sub '#' hm2)
    · exact absurd he (by decide)
  have hPA_slash : N ≠ [] → PA.head? = some '/' := by
    intro hNe
    have hnl_ne : (netlocSplit (schemeSplit u).2).1 ≠ [] := by
      intro he
      apply hNe
      rw [hNdef, hsplit_netloc, he]
      rfl
    have hsp_head : (urlsplitCore u).path = [] ∨
        (urlsplitCore u).path.head? = some '/' := by
      rcases netlocSplit_rest _ hnl_ne with hnil | ⟨c, t, hct, hc⟩
      · left
        have hfr : (fragSplit (netlocSplit (schemeSplit u).2).2).1 = [] := by
          rw [hnil]
          rfl
        have hqs : (urlsplitCore u).path =
            (querySplit (fragSplit (netlocSplit (schemeSplit u).2).2).1).1 := rfl
        rw [hqs, hfr]
        rfl
      · by_cases hpe : (urlsplitCore u).path = []
        · left; exact hpe
        · right
          obtain ⟨s2, hs2⟩ := querySplit_decomp
            (fragSplit (netlocSplit (schemeSplit u).2).2).1
          obtain ⟨s1, hs1⟩ := fragSplit_decomp (netlocSplit (schemeSplit u).2).2
          obtain ⟨p0, pt, hpc⟩ := List.exists_cons_of_ne_nil hpe
          have hpc2 : (querySplit (fragSplit (netlocSplit (schemeSplit u).2).2).1).1 =
              p0 :: pt := hpc
          have hcp : c = p0 := by
            rw [hs2, hpc2] at hs1
            rw [hct] at hs1
            simp only [List.cons_append, List.append_assoc, List.cons.injEq] at hs1
            exact hs1.1
          rcases hc with rfl | rfl | rfl
          · rw [hpc, ← hcp]
            rfl
          · exfalso
            apply hpath_noq
            rw [hpc, ← hcp]
            exact List.mem_cons_self _ _
          · exfalso
            apply hpath_nof
            rw [hpc, ← hcp]
            exact List.mem_cons_self _ _
    have hp_head : (urlparseCore u).path = [] ∨
        (urlparseCore u).path.head? = some '/' := by
      rcases urlparseCore_path_cases u with ⟨heq, -⟩ | ⟨-, heq⟩
      · rw [heq]; exact hsp_head
      · rw [heq]
        rcases splitParamsCore_head (urlsplitCore u).path with h1 | h1
        · left; exact h1
        · rcases hsp_head with h2 | h2
          · left
            rw [h2]
            rfl
          · right
            rw [h1]
            exact h2
    rw [hPAdef]
    exact normPath_head _ hp_head
  have hPA_semi : ';' ∈ PA → '/' ∈ PA ∧ ';' ∉ lastSegF '/' PA := by
    intro hm
    have hm2 : ';' ∈ (urlparseCore u).path := by
      rcases mem_normPath _ ';' (hPAdef ▸ hm) with h2 | h2
      · exact h2
      · exact absurd h2 (by decide)
    rcases urlparseCore_path_cases u with ⟨heq, hnos⟩ | ⟨hin, heq⟩
    · rw [heq] at hm2
      exact absurd hm2 hnos
    · rw [heq] at hm2
      rcases splitParamsCore_semi (urlsplitCore u).path with h1 | ⟨hsl, hns⟩
      · exact absurd hm2 h1
      · rw [← heq] at hsl hns
        constructor
        · rw [hPAdef]
          exact slash_mem_normPath _ hsl
        · rw [hPAdef]
          rcases lastSegF_normPath (urlparseCore u).path with h2 | h2
          · rw [h2]; simp
          · rw [h2]; exact hns
  -- ===== query facts =====
  have hsplit_query : (urlparseCore u).query =
      (querySplit (fragSplit (netlocSplit (schemeSplit u).2).2).1).2 :=
    urlparseCore_query u
  have hq1_sub : ∀ x ∈ q1,
      x ∈ (fragSplit (netlocSplit (schemeSplit u).2).2).1 := by
    intro x hx
    refine querySplit_snd_sub _ x ?_
    rw [← hsplit_query]
    exact hq1def ▸ hx
  have hQ_nof : '#' ∉ Q := by
    rw [hQdef]
    by_cases hqe : q1.isEmpty = true
    · rw [hqe]
      rw [if_neg (by decide)]
      intro hm
      rw [List.isEmpty_eq_true.mp hqe] at hm
      cases hm
    · rw [if_pos (by simp [hqe])]
      intro hm
      rcases mem_normQuery q1 hq.1 hq.2 '#' hm with he | he | he
      · exact absurd he (by decide)
      · exact absurd he (by decide)
      · exact fragSplit_no_hash _ (hq1_sub '#' he)
  have hQ_fix : Q ≠ [] → joinQuery (sortPairs (parseQslCore Q)) = Q := by
    intro hQne
    by_cases hqe : q1.isEmpty = true
    · exfalso
      apply hQne
      rw [hQdef, hqe, if_neg (by decide)]
      exact List.isEmpty_eq_true.mp hqe
    · have hQval : Q = joinQuery (sortPairs (parseQslCore q1)) := by
        rw [hQdef, if_pos (by simp [hqe])]
      rw [hQval]
      exact normQuery_idem q1 hq.1 hq.2
  -- ===== second pass =====
  have hsplit2 : urlsplitCore (urlunsplitCore S N PA Q []) =
      ⟨toLowerL S, N, PA, Q, []⟩ :=
    urlsplit_roundtrip S N PA Q hS_ne hS_head hS_chars hN_chars hPA_ne hPA_noq
      hPA_nof hPA_nds hPA_slash hQ_nof
  have hnof_R : '#' ∉ urlunsplitCore S N PA Q [] := by
    rw [urlunsplitCore_shape S N PA Q hS_ne hPA_ne hPA_nds hPA_slash]
    intro hm
    rcases List.mem_append.mp hm with hm | hm
    · exact absurd (hS_chars '#' hm) (by decide)
    · rcases List.mem_cons.mp hm with he | hm
      · exact absurd he (by decide)
      · rcases List.mem_append.mp hm with hm | hm
        · by_cases hNe : N.isEmpty = true
          · rw [if_pos hNe] at hm
            exact hPA_nof hm
          · rw [if_neg hNe] at hm
            rcases List.mem_cons.mp hm with he | hm
            · exact absurd he (by decide)
            · rcases List.mem_cons.mp hm with he | hm
              · exact absurd he (by decide)
              · rcases List.mem_append.mp hm with hm | hm
                · exact hN_chars '#' hm (Or.inr (Or.inr rfl))
                · exact hPA_nof hm
        · by_cases hQe : Q.isEmpty = true
          · rw [if_pos hQe] at hm
            cases hm
          · rw [if_neg hQe] at hm
            rcases List.mem_cons.mp hm with he | hm
            · exact absurd he (by decide)
            · exact hQ_nof hm
  have hdefrag : (urldefragCore (urlunsplitCore S N PA Q [])).1 =
      urlunsplitCore S N PA Q [] := by
    rw [urldefragCore_of_not_mem _ hnof_R]
  have hp2scheme : (urlparseCore (urlunsplitCore S N PA Q [])).scheme = toLowerL S := by
    rw [urlparseCore_scheme, hsplit2]
  have hp2netloc : (urlparseCore (urlunsplitCore S N PA Q [])).netloc = N := by
    rw [urlparseCore_netloc, hsplit2]
  have hp2query : (urlparseCore (urlunsplitCore S N PA Q [])).query = Q := by
    rw [urlparseCore_query, hsplit2]
  have hp2path : (urlparseCore (urlunsplitCore S N PA Q [])).path = PA := by
    rcases urlparseCore_path_cases (urlunsplitCore S N PA Q []) with ⟨heq, -⟩ | ⟨hin, heq⟩
    · rw [heq, hsplit2]
    · rw [hsplit2] at hin heq
      obtain ⟨hsl, hns⟩ := hPA_semi hin
      rw [heq, splitParamsCore_clean PA hsl hns]
  -- ===== conclude =====
  rw [hR, normalize_url_eq (urlunsplitCore S N PA Q [])]
  rw [hdefrag, hp2scheme, hp2netloc, hp2path, hp2query]
  rw [hS_fix, hS_fix, hN_fix]
  rw [if_neg (by simp [List.isEmpty_eq_true, hS_ne])]
  rw [show normPath PA = PA from by rw [hPAdef]; exact normPath_idem _]
  by_cases hQe : Q.isEmpty = true
  · rw [hQe]
    rw [if_neg (by decide)]
  · rw [show (!Q.isEmpty) = true from by simp [hQe]]
    rw [if_pos rfl]
    rw [hQ_fix (fun he => hQe (by rw [he]; rfl))]

end Crawler

namespace Crawler

/-- C5: counterexample.  `normalize_url` is not idempotent: the
percent-escape `%2B` in the query value of `http://a.com/?x=a%2Bb` is
decoded to `+` by the first pass, and the second pass then decodes that `+`
to a space, so the two results differ. -/
theorem C5_counterexample :
    normalize_url (normalize_url ("http://a.com/?x=a%2Bb").data) ≠
      normalize_url ("http://a.com/?x=a%2Bb").data := by decide

/-- C5: witness.  A concrete URL (uppercase host, duplicated slash,
unsorted query, no percent or plus) satisfying the amended theorem's
hypothesis, on which normalization is indeed idempotent. -/
theorem C5_normalize_idempotent_witness :
    ('%' ∉ (urlparseCore (urldefragCore ("http://Example.COM/a//b?y=2&x=1").data).1).query ∧
     '+' ∉ (urlparseCore (urldefragCore ("http://Example.COM/a//b?y=2&x=1").data).1).query) ∧
    normalize_url (normalize_url ("http://Example.COM/a//b?y=2&x=1").data) =
      normalize_url ("http://Example.COM/a//b?y=2&x=1").data :=
  ⟨⟨by decide, by decide⟩, C5_normalize_idempotent _ ⟨by decide, by decide⟩⟩

end Crawler
